import Mathlib

/-!
Verification of the flame-graph core of `src/main.rs`.

Embedding conventions:
* `Sym` (the interned symbol type of the `string_interner` crate) is modelled
  as `Nat`; the crate assigns symbols in first-interning order and compares
  them by that index, which the `Nat` order mirrors.
* `u64` counts are modelled as `Nat`; `Node::add` only adds counts, and the
  tool's inputs are bounded far below `2^64`, so wrap-around is not part of
  the observable algorithm.  The `u64` parse bound is kept in `parseU64`.
* `HashMap<Sym, Node>` is modelled as an association list `List (Nat × Node)`
  in insertion order; the source only observes the map through single-key
  lookup and through a sorted list of its keys, both of which are captured
  below.  An association list is a faithful image of a `HashMap` exactly when
  its keys are distinct, which `Node.nodupB` records.
* Rust `Vec` stacks (the frame stack and the per-frame key worklist) are
  modelled as `List` with the head playing the role of the vector's back
  (the `pop` end).  `Frame::new` sorts the key vector descending and pops
  from the back, so in the list model the worklist is the ascending-sorted
  key list consumed from the head.
-/

set_option maxHeartbeats 1000000

/-- `struct Node { count: u64, children: Option<HashMap<Sym, Node>> }`. -/
inductive Node : Type where
  | mk (count : Nat) (children : Option (List (Nat × Node))) : Node

/-- The `count` field. -/
def Node.count : Node → Nat
  | .mk c _ => c

/-- The `children` field. -/
def Node.childrenOpt : Node → Option (List (Nat × Node))
  | .mk _ ch => ch

/-- The children map viewed as a (possibly empty) association list. -/
def Node.childrenList : Node → List (Nat × Node)
  | .mk _ ch => ch.getD []

/-- `Node::new()`: count 0, no children. -/
def Node.new : Node := .mk 0 none

/-- Single-key lookup in the children association list
(`HashMap` indexing in the source). -/
def lookupChild : List (Nat × Node) → Nat → Option Node
  | [], _ => none
  | (s', n) :: t, s => if s' = s then some n else lookupChild t s

mutual

/-- `Node::add`: add `count` to this node, then descend into (creating on
demand) the child named by the next path element.  The Rust function mutates
`self` and returns `()`; the embedding returns the updated node. -/
def Node.add : Node → List Nat → Nat → Node
  | .mk c ch, [], k => .mk (c + k) ch
  | .mk c ch, s :: rest, k => .mk (c + k) (some (addChild (ch.getD []) s rest k))
termination_by n path k => (path.length, 0)

/-- `self.children.get_or_insert_with(HashMap::new).entry(child_name)
.or_insert_with(Node::new).add(path, count)` on the association list. -/
def addChild : List (Nat × Node) → Nat → List Nat → Nat → List (Nat × Node)
  | [], s, rest, k => [(s, Node.add Node.new rest k)]
  | (s', n) :: t, s, rest, k =>
    if s' = s then (s', Node.add n rest k) :: t
    else (s', n) :: addChild t s rest k
termination_by l s rest k => (rest.length, l.length + 1)

end

/-- `Node::add` returns `()` in the source; this variant makes the returned
value explicit alongside the updated tree. -/
def Node.addRet (n : Node) (path : List Nat) (k : Nat) : Node × Unit :=
  (Node.add n path k, ())

mutual

/-- `Node::depth(min_count, depth)`: the Depth Resolver.  A node whose count
is below `min_count` contributes its own depth; otherwise the maximum of its
children's contributions, or its own depth if the children iterator is empty
(`.max().unwrap_or(depth)`). -/
def Node.depth : Node → Nat → Nat → Nat
  | .mk c none, minCount, d => if c < minCount then d else d
  | .mk c (some l), minCount, d =>
    if c < minCount then d
    else (childDepths l minCount (d + 1)).max?.getD d
termination_by n m d => sizeOf n

/-- `children.values().map(|c| c.depth(min_count, depth+1))` as a list. -/
def childDepths : List (Nat × Node) → Nat → Nat → List Nat
  | [], _, _ => []
  | (_, n) :: t, minCount, d => Node.depth n minCount d :: childDepths t minCount d
termination_by l m d => sizeOf l

end

mutual

/-- Number of nodes in a tree (root included). -/
def Node.size : Node → Nat
  | .mk _ none => 1
  | .mk _ (some l) => 1 + sizeList l
termination_by n => sizeOf n

/-- Total size of the child subtrees of an association list. -/
def sizeList : List (Nat × Node) → Nat
  | [] => 0
  | (_, n) :: t => Node.size n + sizeList t
termination_by l => sizeOf l

end

/-- Sum of the counts of the children in an association list. -/
def childSumOf (l : List (Nat × Node)) : Nat := (l.map (fun q => q.2.count)).sum

mutual

/-- Key distinctness, recursively: the association-list embedding of a tree
of `HashMap`s has pairwise-distinct keys at every node. -/
def Node.nodupB : Node → Bool
  | .mk _ none => true
  | .mk _ (some l) => decide ((l.map Prod.fst).Nodup) && nodupList l
termination_by n => sizeOf n

/-- `Node.nodupB` over all children of a list. -/
def nodupList : List (Nat × Node) → Bool
  | [] => true
  | (_, n) :: t => Node.nodupB n && nodupList t
termination_by l => sizeOf l

end

mutual

/-- Well-formedness of trees produced by `Node::add` from `Node::new`:
distinct keys everywhere, and every node's count dominates the sum of its
children's counts. -/
def Node.wfB : Node → Bool
  | .mk _ none => true
  | .mk c (some l) =>
    decide ((l.map Prod.fst).Nodup) && decide (childSumOf l ≤ c) && wfList l
termination_by n => sizeOf n

/-- `Node.wfB` over all children of a list. -/
def wfList : List (Nat × Node) → Bool
  | [] => true
  | (_, n) :: t => Node.wfB n && wfList t
termination_by l => sizeOf l

end

/-- Insertion into a sorted list (ascending). -/
def insertSorted (x : Nat) : List Nat → List Nat
  | [] => [x]
  | y :: t => if x ≤ y then x :: y :: t else y :: insertSorted x t

/-- `keys.sort()` / `keys.sort_by(|a, b| b.cmp(a))` with back-end popping:
the ascending-sorted list of keys, consumed from the head. -/
def sortKeys (l : List Nat) : List Nat := l.foldr insertSorted []

/-- The node reached by following a path of symbols from `n`. -/
def Node.atPath : Node → List Nat → Option Node
  | n, [] => some n
  | n, s :: rest =>
    match lookupChild n.childrenList s with
    | none => none
    | some c => Node.atPath c rest

/-- The count stored at a path (0 when the path leads nowhere). -/
def Node.countAt (n : Node) (p : List Nat) : Nat :=
  ((n.atPath p).map Node.count).getD 0

/-- The sum of the children's counts at a path (0 when absent). -/
def Node.childSumAt (n : Node) (p : List Nat) : Nat :=
  ((n.atPath p).map (fun m => childSumOf m.childrenList)).getD 0

/-- A tree built by inserting a list of `(path, count)` records into a fresh
root (the `main` ingestion loop on pre-parsed records). -/
def buildTree (records : List (List Nat × Nat)) : Node :=
  records.foldl (fun t r => Node.add t r.1 r.2) Node.new

/-- Total count of the records whose path is exactly `p`. -/
def termSum (records : List (List Nat × Nat)) (p : List Nat) : Nat :=
  ((records.filter (fun r => decide (r.1 = p))).map Prod.snd).sum

/-- Total count of all records. -/
def recordsSum (records : List (List Nat × Nat)) : Nat :=
  (records.map Prod.snd).sum

/-- `struct Rect { name: Sym, count: u64, depth: u64, offset: u64 }`. -/
structure Rect where
  name : Nat
  count : Nat
  depth : Nat
  offset : Nat
deriving DecidableEq

/-- `struct Frame { keys: Vec<Sym>, start: u64, offset: u64, name: Sym,
node: &Node }` (list head = vector back, see the header comment). -/
structure Frame where
  keys : List Nat
  start : Nat
  offset : Nat
  name : Nat
  node : Node

/-- `Frame::new`: record the node, remember `offset` twice (running child
offset and own start), and take the node's child keys sorted descending for
back-end popping — i.e. the ascending list consumed from the head. -/
def Frame.new (node : Node) (name : Nat) (offset : Nat) : Frame :=
  { keys := sortKeys (node.childrenList.map Prod.fst)
    start := offset
    offset := offset
    name := name
    node := node }

/-- `Rects::new(node, name)`: the initial one-frame stack. -/
def Rects.init (root : Node) (nm : Nat) : List Frame := [Frame.new root nm 0]

/-- Outcome of one iteration of the `while let` loop body in `Rects::next`. -/
inductive StepRes where
  | stop
  | crash
  | yield (r : Rect) (st : List Frame)
  | more (st : List Frame)

/-- One iteration of the loop body of `Rects::next`: pop the top frame; if it
still has a key, look up that child (`crash` marks the `unwrap`/indexing
panics), push the parent back with its running offset advanced and push a
fresh child frame; otherwise emit the frame's rectangle. -/
def step1 : List Frame → StepRes
  | [] => .stop
  | current :: rest =>
    match current.keys with
    | key :: ks =>
      match current.node.childrenOpt with
      | none => .crash
      | some l =>
        match lookupChild l key with
        | none => .crash
        | some child =>
          .more (Frame.new child key current.offset ::
                 { current with keys := ks, offset := current.offset + child.count } :: rest)
    | [] => .yield ⟨current.name, current.node.count, rest.length, current.start⟩ rest

/-- Result of driving the iterator to completion: the emitted rectangles,
ending normally, in a panic, or with the step budget exhausted. -/
inductive RunRes where
  | out (rs : List Rect)
  | crash (rs : List Rect)
  | fuelOut
deriving DecidableEq

/-- Drive `step1` collecting every yielded rectangle (fuel-indexed; the fuel
only bounds the number of loop iterations and is shown sufficient below). -/
def run : Nat → List Frame → RunRes
  | 0, _ => .fuelOut
  | fuel + 1, st =>
    match step1 st with
    | .stop => .out []
    | .crash => .crash []
    | .yield r st' =>
      match run fuel st' with
      | .out rs => .out (r :: rs)
      | .crash rs => .crash (r :: rs)
      | .fuelOut => .fuelOut
    | .more st' => run fuel st'

/-- Whether a run ended in a panic of the child lookup. -/
def isCrash : RunRes → Bool
  | .crash _ => true
  | _ => false

/-- Lookup with a fresh-node default (total helper for measures). -/
def lookupD (l : List (Nat × Node)) (k : Nat) : Node :=
  (lookupChild l k).getD Node.new

theorem lookupChild_sizeOf {l : List (Nat × Node)} {k : Nat} {c : Node}
    (h : lookupChild l k = some c) : sizeOf c < sizeOf l := by
  induction l with
  | nil => simp [lookupChild] at h
  | cons p t ih =>
    obtain ⟨s', n⟩ := p
    simp only [lookupChild] at h
    split at h
    · cases h
      simp only [List.cons.sizeOf_spec, Prod.mk.sizeOf_spec]
      omega
    · have hlt := ih h
      simp only [List.cons.sizeOf_spec, Prod.mk.sizeOf_spec]
      omega

theorem childrenList_sizeOf (n : Node) : sizeOf n.childrenList < sizeOf n := by
  obtain ⟨c, ch⟩ := n
  cases ch with
  | none =>
    show sizeOf ([] : List (Nat × Node)) < sizeOf (Node.mk c none)
    simp only [Node.mk.sizeOf_spec, List.nil.sizeOf_spec, Option.none.sizeOf_spec]
    omega
  | some l =>
    show sizeOf l < sizeOf (Node.mk c (some l))
    simp only [Node.mk.sizeOf_spec, Option.some.sizeOf_spec]
    omega

mutual

/-- The rectangles that the iterator produces for the subtree rooted at a
node placed at `off` and depth `d` under display name `nm`, each annotated
with the path (sequence of child keys) of the node it describes: children in
ascending key order with the running offset advanced by each child's count,
followed by the node's own rectangle (post-order emission). -/
def pathRectsNode (n : Node) (nm off d : Nat) : List (List Nat × Rect) :=
  pathRectsKeys (sortKeys (n.childrenList.map Prod.fst)) n.childrenList off d ++
  [([], ⟨nm, n.count, d, off⟩)]
termination_by (sizeOf n, 0)
decreasing_by
  exact Prod.Lex.left _ _ (childrenList_sizeOf n)

/-- The rectangles produced while a frame's remaining key worklist is `ks`:
for each key in order, the whole annotated block of that child, with the
running offset advanced by the child's count (a missing key, impossible for
worklists taken from the map itself, contributes nothing). -/
def pathRectsKeys : List Nat → List (Nat × Node) → Nat → Nat → List (List Nat × Rect)
  | [], _, _, _ => []
  | k :: ks, l, off, d =>
    match h : lookupChild l k with
    | none => pathRectsKeys ks l off d
    | some c =>
      (pathRectsNode c k off (d + 1)).map (fun pr => (k :: pr.1, pr.2)) ++
      pathRectsKeys ks l (off + c.count) d
termination_by ks l off d => (sizeOf l, ks.length)
decreasing_by
  · exact Prod.Lex.right _ (by simp)
  · exact Prod.Lex.left _ _ (lookupChild_sizeOf h)
  · exact Prod.Lex.right _ (by simp)

end

/-- The full annotated output for a tree under root display name `nm`. -/
def pathRects (root : Node) (nm : Nat) : List (List Nat × Rect) :=
  pathRectsNode root nm 0 0

/-- The plain rectangle sequence the iterator yields for a tree. -/
def rectsOf (root : Node) (nm : Nat) : List Rect :=
  (pathRects root nm).map Prod.snd

/-- Measure of the loop iterations needed to drain one frame's worklist. -/
def keysWeight (l : List (Nat × Node)) : List Nat → Nat
  | [] => 0
  | k :: ks => 2 * Node.size (lookupD l k) + keysWeight l ks

/-- Loop iterations needed to finish one frame (its own emission included). -/
def frameWeight (f : Frame) : Nat := 1 + keysWeight f.node.childrenList f.keys

/-- Loop iterations needed to drain a whole stack. -/
def stackWeight : List Frame → Nat
  | [] => 0
  | f :: rest => frameWeight f + stackWeight rest

/-- The rectangles still owed by one frame whose bottom depth is `db`. -/
def denoteFrame (f : Frame) (db : Nat) : List Rect :=
  (pathRectsKeys f.keys f.node.childrenList f.offset db).map Prod.snd ++
  [⟨f.name, f.node.count, db, f.start⟩]

/-- The rectangles still owed by a whole stack. -/
def denoteStack : List Frame → List Rect
  | [] => []
  | f :: rest => denoteFrame f rest.length ++ denoteStack rest

/-- `str::parse::<u64>`: optional leading `+`, at least one ASCII digit,
value within the `u64` range. -/
def parseU64 (s : List Char) : Option Nat :=
  let digits := match s with
    | '+' :: rest => rest
    | _ => s
  if digits = [] then none
  else if digits.all Char.isDigit then
    let v := digits.foldl (fun a c => a * 10 + (c.toNat - 48)) 0
    if v < 2 ^ 64 then some v else none
  else none

/-- `line.rfind(' ')` followed by the two slices: splits at the last space,
`none` when the line has no space. -/
def splitLastSpace : List Char → Option (List Char × List Char)
  | [] => none
  | c :: rest =>
    match splitLastSpace rest with
    | some (a, b) => some (c :: a, b)
    | none => if c = ' ' then some ([], rest) else none

/-- `str::split(';')`: the `;`-separated pieces, empty pieces included. -/
def splitOnSemi (cs : List Char) : List (List Char) :=
  cs.foldr (fun c acc =>
    if c = ';' then [] :: acc
    else match acc with
      | h :: t => (c :: h) :: t
      | [] => [[c]]) [[]]

/-- The `StringInterner`: the stored strings in interning order; a symbol is
an index into this list. -/
structure Interner where
  strs : List String
deriving DecidableEq

/-- An empty interner. -/
def Interner.empty : Interner := ⟨[]⟩

/-- `get_or_intern`: the index of `s` if already present, else the next
fresh index with `s` appended. -/
def Interner.getOrIntern (it : Interner) (s : String) : Nat × Interner :=
  match it.strs.indexOf? s with
  | some i => (i, it)
  | none => (it.strs.length, ⟨it.strs ++ [s]⟩)

/-- `resolve`: the string a symbol stands for. -/
def Interner.resolve (it : Interner) (sym : Nat) : Option String :=
  it.strs.get? sym

/-- Intern a list of frame names left to right, returning the symbol path. -/
def internPath (it : Interner) (parts : List String) : List Nat × Interner :=
  match parts with
  | [] => ([], it)
  | p :: rest =>
    let (s, it') := it.getOrIntern p
    let (ss, it'') := internPath it' rest
    (s :: ss, it'')

/-- `str::trim` at character level: drop whitespace from both ends
(`Char.isWhitespace` matches the whitespace of the tool's inputs). -/
def trimChars (cs : List Char) : List Char :=
  ((cs.dropWhile Char.isWhitespace).reverse.dropWhile Char.isWhitespace).reverse

/-- Parse one input line as `main` does: trim, split at the last space, parse
the trailing count, split the stack on `;` and drop empty segments.  `none`
is an invalid line. -/
def parseLine (s : String) : Option (List String × Nat) :=
  let line := trimChars s.toList
  match splitLastSpace line with
  | none => none
  | some (stackCs, countCs) =>
    match parseU64 countCs with
    | none => none
    | some c =>
      some (((splitOnSemi stackCs).filter (fun p => !p.isEmpty)).map
              (fun cs => String.mk cs), c)

/-- The mutable state of the ingestion loop in `main`. -/
structure IngestState where
  root : Node
  interner : Interner
  invalid : Nat

/-- Process one input line: tally invalid lines, otherwise intern the frame
names and insert the symbol path into the tree (`reverse` is `false` in the
source, so paths are inserted in forward order). -/
def ingestLine (st : IngestState) (line : String) : IngestState :=
  match parseLine line with
  | none => { st with invalid := st.invalid + 1 }
  | some (parts, c) =>
    let (path, it') := internPath st.interner parts
    { st with root := Node.add st.root path c, interner := it' }

/-- The whole ingestion loop over the input lines. -/
def ingestAll (lines : List String) : IngestState :=
  lines.foldl ingestLine { root := Node.new, interner := Interner.empty, invalid := 0 }

/-- The observable outcome of `main`: the data the output document is
rendered from (`none` when no document is printed) and the diagnostic lines
printed to the error channel, in order. -/
structure MainOut where
  document : Option Node
  diag : List String

/-- `main` after the ingestion loop: intern `"all"`, and if the root count is
zero print only the empty-result diagnostic and stop before producing any
document — the invalid-lines diagnostic at the end of `main` is only reached
on runs that print the document. -/
def mainModel (lines : List String) : MainOut :=
  let st := ingestAll lines
  if st.root.count = 0 then
    { document := none, diag := ["no valid stack counts provided!"] }
  else
    { document := some st.root
      diag := if st.invalid > 0 then ["invalid lines: " ++ toString st.invalid] else [] }

/-- Strict lexicographic order on strings by character code (`Ord` on Rust
`str`, restricted to the comparisons the claims need). -/
def lexLt : List Char → List Char → Bool
  | [], [] => false
  | [], _ :: _ => true
  | _ :: _, [] => false
  | a :: as, b :: bs => a.toNat < b.toNat || (a = b && lexLt as bs)

/-! ### Basic structural lemmas -/

@[simp] theorem Node.count_mk (c : Nat) (ch : Option (List (Nat × Node))) :
    (Node.mk c ch).count = c := rfl

@[simp] theorem Node.childrenOpt_mk (c : Nat) (ch : Option (List (Nat × Node))) :
    (Node.mk c ch).childrenOpt = ch := rfl

@[simp] theorem Node.childrenList_mk (c : Nat) (ch : Option (List (Nat × Node))) :
    (Node.mk c ch).childrenList = ch.getD [] := rfl

theorem mem_children_sizeOf {p : Nat × Node} {c : Nat}
    {ch : Option (List (Nat × Node))} (hp : p ∈ ch.getD []) :
    sizeOf p.2 < sizeOf (Node.mk c ch) := by
  cases ch with
  | none => simp at hp
  | some l =>
    have h1 : sizeOf p < sizeOf l := List.sizeOf_lt_of_mem hp
    obtain ⟨a, b⟩ := p
    simp only [Prod.mk.sizeOf_spec] at h1
    simp only [Node.mk.sizeOf_spec, Option.some.sizeOf_spec]
    omega

/-- Induction over the nested tree type: to prove a property of every node,
prove it at each node assuming it for all children. -/
theorem Node.ind (P : Node → Prop)
    (h : ∀ c ch, (∀ p ∈ Option.getD ch [], P p.2) → P (.mk c ch)) :
    ∀ n, P n
  | .mk c ch => h c ch (fun p hp => Node.ind P h p.2)
termination_by n => sizeOf n
decreasing_by
  exact mem_children_sizeOf hp

@[simp] theorem lookupChild_nil (s : Nat) : lookupChild [] s = none := rfl

theorem lookupChild_cons (s' : Nat) (n : Node) (t : List (Nat × Node)) (s : Nat) :
    lookupChild ((s', n) :: t) s = if s' = s then some n else lookupChild t s := rfl

theorem lookupChild_eq_none {l : List (Nat × Node)} {s : Nat} :
    lookupChild l s = none ↔ s ∉ l.map Prod.fst := by
  induction l with
  | nil => simp
  | cons p t ih =>
    obtain ⟨s', n⟩ := p
    by_cases hss : s' = s <;> simp [lookupChild_cons, hss, ih] <;> tauto

theorem lookupChild_isSome {l : List (Nat × Node)} {s : Nat} :
    (lookupChild l s).isSome ↔ s ∈ l.map Prod.fst := by
  rcases h : lookupChild l s with _ | c
  · simpa [h] using (lookupChild_eq_none.mp h)
  · simp only [Option.isSome_some, true_iff]
    by_contra hmem
    rw [← lookupChild_eq_none] at hmem
    rw [h] at hmem
    cases hmem

theorem lookupChild_mem {l : List (Nat × Node)} {s : Nat} {c : Node}
    (h : lookupChild l s = some c) : (s, c) ∈ l := by
  induction l with
  | nil => simp at h
  | cons p t ih =>
    obtain ⟨s', n⟩ := p
    rw [lookupChild_cons] at h
    split at h
    · cases h
      subst_vars
      exact List.mem_cons_self _ _
    · exact List.mem_cons_of_mem _ (ih h)

/-- In a list with distinct keys, lookup of a present key returns its node. -/
theorem lookupChild_of_mem {l : List (Nat × Node)} {s : Nat} {c : Node}
    (hnd : (l.map Prod.fst).Nodup) (hm : (s, c) ∈ l) :
    lookupChild l s = some c := by
  induction l with
  | nil => simp at hm
  | cons p t ih =>
    obtain ⟨s', n⟩ := p
    simp only [List.map_cons, List.nodup_cons] at hnd
    rcases List.mem_cons.mp hm with h1 | h1
    · cases h1
      simp [lookupChild_cons]
    · have hs : s' ≠ s := by
        intro he
        subst he
        exact hnd.1 (List.mem_map.mpr ⟨(s', c), h1, rfl⟩)
      simp [lookupChild_cons, hs]
      exact ih hnd.2 h1

/-! ### sortKeys lemmas -/

theorem insertSorted_perm (x : Nat) (l : List Nat) :
    List.Perm (insertSorted x l) (x :: l) := by
  induction l with
  | nil => exact List.Perm.refl _
  | cons y t ih =>
    rw [insertSorted]
    split
    · exact List.Perm.refl _
    · exact (List.Perm.cons y ih).trans (List.Perm.swap x y t)

theorem sortKeys_perm (l : List Nat) : List.Perm (sortKeys l) l := by
  induction l with
  | nil => exact List.Perm.refl _
  | cons x t ih =>
    have h1 : sortKeys (x :: t) = insertSorted x (sortKeys t) := rfl
    rw [h1]
    exact (insertSorted_perm x (sortKeys t)).trans (List.Perm.cons x ih)

theorem insertSorted_sorted {l : List Nat} (x : Nat)
    (h : List.Sorted (· ≤ ·) l) : List.Sorted (· ≤ ·) (insertSorted x l) := by
  induction l with
  | nil => simp [insertSorted]
  | cons y t ih =>
    rw [insertSorted]
    split
    · rename_i hxy
      refine List.sorted_cons.mpr ⟨fun b hb => ?_, h⟩
      rcases List.mem_cons.mp hb with rfl | hb
      · exact hxy
      · exact le_trans hxy ((List.sorted_cons.mp h).1 b hb)
    · rename_i hxy
      push_neg at hxy
      have ht := (List.sorted_cons.mp h).2
      have hy := (List.sorted_cons.mp h).1
      refine List.sorted_cons.mpr ⟨fun b hb => ?_, ih ht⟩
      have hb2 := (insertSorted_perm x t).mem_iff.mp hb
      rcases List.mem_cons.mp hb2 with rfl | hb3
      · exact le_of_lt hxy
      · exact hy b hb3

theorem sortKeys_sorted (l : List Nat) : List.Sorted (· ≤ ·) (sortKeys l) := by
  induction l with
  | nil => simp [sortKeys]
  | cons x t ih => exact insertSorted_sorted x ih

theorem sortKeys_mem {l : List Nat} {x : Nat} : x ∈ sortKeys l ↔ x ∈ l :=
  (sortKeys_perm l).mem_iff

theorem sortKeys_nodup {l : List Nat} (h : l.Nodup) : (sortKeys l).Nodup :=
  (sortKeys_perm l).nodup_iff.mpr h

/-- On a list with distinct keys, the sorted key list is strictly sorted. -/
theorem sortKeys_strict {l : List Nat} (h : l.Nodup) :
    List.Sorted (· < ·) (sortKeys l) :=
  (sortKeys_sorted l).lt_of_le (sortKeys_nodup h)

/-! ### Equation lemmas for the recursive definitions -/

theorem Node.add_nil (c : Nat) (ch : Option (List (Nat × Node))) (k : Nat) :
    Node.add (.mk c ch) [] k = .mk (c + k) ch := by
  simp [Node.add]

theorem Node.add_cons (c : Nat) (ch : Option (List (Nat × Node)))
    (s : Nat) (rest : List Nat) (k : Nat) :
    Node.add (.mk c ch) (s :: rest) k =
      .mk (c + k) (some (addChild (ch.getD []) s rest k)) := by
  simp [Node.add]

theorem addChild_nil (s : Nat) (rest : List Nat) (k : Nat) :
    addChild [] s rest k = [(s, Node.add Node.new rest k)] := by
  simp [addChild]

theorem addChild_cons (s' : Nat) (n : Node) (t : List (Nat × Node))
    (s : Nat) (rest : List Nat) (k : Nat) :
    addChild ((s', n) :: t) s rest k =
      if s' = s then (s', Node.add n rest k) :: t
      else (s', n) :: addChild t s rest k := by
  simp [addChild]

theorem Node.depth_none (c minCount d : Nat) :
    Node.depth (.mk c none) minCount d = d := by
  simp [Node.depth]

theorem Node.depth_some (c : Nat) (l : List (Nat × Node)) (minCount d : Nat) :
    Node.depth (.mk c (some l)) minCount d =
      if c < minCount then d
      else (childDepths l minCount (d + 1)).max?.getD d := by
  rw [Node.depth]

theorem childDepths_nil (m d : Nat) : childDepths [] m d = [] := by
  simp [childDepths]

theorem childDepths_cons (s : Nat) (n : Node) (t : List (Nat × Node)) (m d : Nat) :
    childDepths ((s, n) :: t) m d = Node.depth n m d :: childDepths t m d := by
  simp [childDepths]

theorem Node.size_none (c : Nat) : Node.size (.mk c none) = 1 := by
  simp [Node.size]

theorem Node.size_some (c : Nat) (l : List (Nat × Node)) :
    Node.size (.mk c (some l)) = 1 + sizeList l := by
  simp [Node.size]

theorem sizeList_nil : sizeList [] = 0 := by simp [sizeList]

theorem sizeList_cons (s : Nat) (n : Node) (t : List (Nat × Node)) :
    sizeList ((s, n) :: t) = Node.size n + sizeList t := by
  simp [sizeList]

theorem Node.size_pos (n : Node) : 0 < n.size := by
  obtain ⟨c, _ | l⟩ := n
  · rw [Node.size_none]; omega
  · rw [Node.size_some]; omega

theorem nodupList_iff {l : List (Nat × Node)} :
    nodupList l = true ↔ ∀ p ∈ l, Node.nodupB p.2 = true := by
  induction l with
  | nil => simp [nodupList]
  | cons p t ih =>
    obtain ⟨s, n⟩ := p
    rw [nodupList]
    simp [ih]

theorem Node.nodupB_mk {c : Nat} {ch : Option (List (Nat × Node))} :
    Node.nodupB (.mk c ch) = true ↔
      ((Option.getD ch []).map Prod.fst).Nodup ∧
      ∀ p ∈ Option.getD ch [], Node.nodupB p.2 = true := by
  cases ch with
  | none => simp [Node.nodupB]
  | some l => rw [Node.nodupB]; simp [nodupList_iff]

theorem wfList_iff {l : List (Nat × Node)} :
    wfList l = true ↔ ∀ p ∈ l, Node.wfB p.2 = true := by
  induction l with
  | nil => simp [wfList]
  | cons p t ih =>
    obtain ⟨s, n⟩ := p
    rw [wfList]
    simp [ih]

theorem Node.wfB_mk {c : Nat} {ch : Option (List (Nat × Node))} :
    Node.wfB (.mk c ch) = true ↔
      ((Option.getD ch []).map Prod.fst).Nodup ∧
      childSumOf (Option.getD ch []) ≤ c ∧
      ∀ p ∈ Option.getD ch [], Node.wfB p.2 = true := by
  cases ch with
  | none => simp [Node.wfB, childSumOf]
  | some l => rw [Node.wfB]; simp [wfList_iff, and_assoc]

/-- Well-formed trees have distinct keys everywhere. -/
theorem Node.wfB_nodupB {n : Node} (h : Node.wfB n = true) :
    Node.nodupB n = true := by
  induction n using Node.ind with
  | h c ch ih =>
    rw [Node.wfB_mk] at h
    exact Node.nodupB_mk.mpr ⟨h.1, fun p hp => ih p hp (h.2.2 p hp)⟩

theorem pathRectsKeys_nil (l : List (Nat × Node)) (off d : Nat) :
    pathRectsKeys [] l off d = [] := by
  rw [pathRectsKeys]

theorem pathRectsKeys_cons_none {l : List (Nat × Node)} {k : Nat}
    (ks : List Nat) (off d : Nat) (h : lookupChild l k = none) :
    pathRectsKeys (k :: ks) l off d = pathRectsKeys ks l off d := by
  rw [pathRectsKeys, h]

theorem pathRectsKeys_cons_some {l : List (Nat × Node)} {k : Nat} {c : Node}
    (ks : List Nat) (off d : Nat) (h : lookupChild l k = some c) :
    pathRectsKeys (k :: ks) l off d =
      (pathRectsNode c k off (d + 1)).map (fun pr => (k :: pr.1, pr.2)) ++
      pathRectsKeys ks l (off + c.count) d := by
  rw [pathRectsKeys, h]

theorem pathRectsNode_def (n : Node) (nm off d : Nat) :
    pathRectsNode n nm off d =
      pathRectsKeys (sortKeys (n.childrenList.map Prod.fst)) n.childrenList off d ++
      [([], ⟨nm, n.count, d, off⟩)] := by
  rw [pathRectsNode]

/-! ### Prefix tests on symbol paths -/

/-- `p` is a (not necessarily strict) leading segment of `q`. -/
def isPre : List Nat → List Nat → Bool
  | [], _ => true
  | _ :: _, [] => false
  | a :: as, b :: bs => a = b && isPre as bs

/-- `p` is a strict leading segment of `q`. -/
def isSPre (p q : List Nat) : Bool := isPre p q && !decide (p = q)

@[simp] theorem isPre_nil (q : List Nat) : isPre [] q = true := by
  cases q <;> rfl

@[simp] theorem isPre_cons_nil (a : Nat) (as : List Nat) :
    isPre (a :: as) [] = false := rfl

theorem isPre_cons_cons (a : Nat) (as : List Nat) (b : Nat) (bs : List Nat) :
    isPre (a :: as) (b :: bs) = (decide (a = b) && isPre as bs) := by
  simp [isPre]

@[simp] theorem isPre_refl (p : List Nat) : isPre p p = true := by
  induction p with
  | nil => rfl
  | cons a as ih => simp [isPre_cons_cons, ih]

/-! ### How `Node::add` changes counts along the tree -/

theorem Node.count_add (n : Node) (path : List Nat) (k : Nat) :
    (Node.add n path k).count = n.count + k := by
  obtain ⟨c, ch⟩ := n
  cases path with
  | nil => rw [Node.add_nil]; rfl
  | cons s rest => rw [Node.add_cons]; rfl

@[simp] theorem Node.countAt_nil (n : Node) : n.countAt [] = n.count := rfl

theorem Node.countAt_cons_none {n : Node} {s : Nat}
    (p : List Nat) (h : lookupChild n.childrenList s = none) :
    n.countAt (s :: p) = 0 := by
  simp [Node.countAt, Node.atPath, h]

theorem Node.countAt_cons_some {n : Node} {s : Nat} {c : Node}
    (p : List Nat) (h : lookupChild n.childrenList s = some c) :
    n.countAt (s :: p) = c.countAt p := by
  simp [Node.countAt, Node.atPath, h]

@[simp] theorem Node.countAt_new (p : List Nat) : Node.new.countAt p = 0 := by
  cases p with
  | nil => rfl
  | cons s rest => exact Node.countAt_cons_none rest (by rfl)

@[simp] theorem Node.childSumAt_nil (n : Node) :
    n.childSumAt [] = childSumOf n.childrenList := rfl

theorem Node.childSumAt_cons_none {n : Node} {s : Nat}
    (p : List Nat) (h : lookupChild n.childrenList s = none) :
    n.childSumAt (s :: p) = 0 := by
  simp [Node.childSumAt, Node.atPath, h]

theorem Node.childSumAt_cons_some {n : Node} {s : Nat} {c : Node}
    (p : List Nat) (h : lookupChild n.childrenList s = some c) :
    n.childSumAt (s :: p) = c.childSumAt p := by
  simp [Node.childSumAt, Node.atPath, h]

@[simp] theorem Node.childSumAt_new (p : List Nat) : Node.new.childSumAt p = 0 := by
  cases p with
  | nil => rfl
  | cons s rest => exact Node.childSumAt_cons_none rest (by rfl)

theorem lookupChild_addChild_eq {l : List (Nat × Node)} (s : Nat)
    (rest : List Nat) (k : Nat) :
    lookupChild (addChild l s rest k) s =
      some (Node.add ((lookupChild l s).getD Node.new) rest k) := by
  induction l with
  | nil => rw [addChild_nil]; simp [lookupChild_cons]
  | cons p t ih =>
    obtain ⟨s', n⟩ := p
    rw [addChild_cons]
    split
    · rename_i he
      simp [lookupChild_cons, he]
    · rename_i he
      simp [lookupChild_cons, he, ih]

theorem lookupChild_addChild_ne {l : List (Nat × Node)} {s s' : Nat}
    (rest : List Nat) (k : Nat) (hne : s' ≠ s) :
    lookupChild (addChild l s rest k) s' = lookupChild l s' := by
  have hss : ¬ (s = s') := fun h => hne h.symm
  induction l with
  | nil =>
    rw [addChild_nil, lookupChild_cons, lookupChild_nil, if_neg hss]
  | cons p t ih =>
    obtain ⟨s₀, n⟩ := p
    rw [addChild_cons]
    by_cases he : s₀ = s
    · rw [if_pos he, lookupChild_cons, lookupChild_cons]
      rw [he, if_neg hss, if_neg hss]
    · rw [if_neg he, lookupChild_cons, lookupChild_cons, ih]

theorem childSumOf_addChild (l : List (Nat × Node)) (s : Nat)
    (rest : List Nat) (k : Nat) :
    childSumOf (addChild l s rest k) = childSumOf l + k := by
  induction l with
  | nil =>
    rw [addChild_nil]
    simp [childSumOf, Node.count_add]
    rfl
  | cons p t ih =>
    obtain ⟨s', n⟩ := p
    rw [addChild_cons]
    split
    · simp [childSumOf, Node.count_add]
      omega
    · simp only [childSumOf, List.map_cons, List.sum_cons] at ih ⊢
      omega

/-- Inserting `(path, k)` raises the count at `p` by `k` exactly when `p`
lies on the inserted path, and leaves it unchanged otherwise. -/
theorem Node.countAt_add (t : Node) (path : List Nat) (k : Nat) :
    ∀ p : List Nat, (Node.add t path k).countAt p =
      t.countAt p + (if isPre p path then k else 0)
  | [] => by
    simp [Node.count_add]
  | s :: p' => by
    obtain ⟨c, ch⟩ := t
    cases path with
    | nil =>
      rw [Node.add_nil]
      rcases h : lookupChild ((Node.mk c ch).childrenList) s with _ | child
      · rw [Node.countAt_cons_none p' (by simpa using h),
            Node.countAt_cons_none p' (by simpa using h)]
        simp
      · rw [Node.countAt_cons_some p' (by simpa using h),
            Node.countAt_cons_some p' (by simpa using h)]
        simp
    | cons s₀ path' =>
      rw [Node.add_cons]
      by_cases hs : s = s₀
      · subst hs
        rw [Node.countAt_cons_some p'
             (by simpa using lookupChild_addChild_eq s path' k)]
        rcases h : lookupChild (Option.getD ch []) s with _ | child
        · rw [Node.countAt_cons_none p' (by simpa using h)]
          simp only [Option.getD_none]
          rw [Node.countAt_add Node.new path' k p', isPre_cons_cons]
          simp
        · rw [Node.countAt_cons_some p' (by simpa using h)]
          simp only [Option.getD_some]
          rw [Node.countAt_add child path' k p', isPre_cons_cons]
          simp
      · have h1 : lookupChild (addChild (Option.getD ch []) s₀ path' k) s =
            lookupChild (Option.getD ch []) s :=
          lookupChild_addChild_ne path' k hs
        rcases h : lookupChild (Option.getD ch []) s with _ | child
        · rw [Node.countAt_cons_none p' (by simpa using (h1.trans h)),
              Node.countAt_cons_none p' (by simpa using h), isPre_cons_cons]
          simp [hs]
        · rw [Node.countAt_cons_some p' (by simpa using (h1.trans h)),
              Node.countAt_cons_some p' (by simpa using h), isPre_cons_cons]
          simp [hs]

theorem isSPre_cons_cons (a : Nat) (as : List Nat) (b : Nat) (bs : List Nat) :
    isSPre (a :: as) (b :: bs) = (decide (a = b) && isSPre as bs) := by
  by_cases hab : a = b
  · subst hab
    simp [isSPre, isPre_cons_cons]
  · simp [isSPre, isPre_cons_cons, hab]

/-- Inserting `(path, k)` raises the children-count sum at `p` by `k` exactly
when the insertion descends strictly past `p`. -/
theorem Node.childSumAt_add (t : Node) (path : List Nat) (k : Nat) :
    ∀ p : List Nat, (Node.add t path k).childSumAt p =
      t.childSumAt p + (if isSPre p path then k else 0)
  | [] => by
    obtain ⟨c, ch⟩ := t
    cases path with
    | nil =>
      rw [Node.add_nil]
      simp [isSPre]
    | cons s₀ path' =>
      rw [Node.add_cons]
      simp [isSPre, childSumOf_addChild]
  | s :: p' => by
    obtain ⟨c, ch⟩ := t
    cases path with
    | nil =>
      rw [Node.add_nil]
      rcases h : lookupChild ((Node.mk c ch).childrenList) s with _ | child
      · rw [Node.childSumAt_cons_none p' (by simpa using h),
            Node.childSumAt_cons_none p' (by simpa using h)]
        simp [isSPre]
      · rw [Node.childSumAt_cons_some p' (by simpa using h),
            Node.childSumAt_cons_some p' (by simpa using h)]
        simp [isSPre]
    | cons s₀ path' =>
      rw [Node.add_cons]
      by_cases hs : s = s₀
      · subst hs
        rw [Node.childSumAt_cons_some p'
             (by simpa using lookupChild_addChild_eq s path' k)]
        rcases h : lookupChild (Option.getD ch []) s with _ | child
        · rw [Node.childSumAt_cons_none p' (by simpa using h)]
          simp only [Option.getD_none]
          rw [Node.childSumAt_add Node.new path' k p', isSPre_cons_cons]
          simp
        · rw [Node.childSumAt_cons_some p' (by simpa using h)]
          simp only [Option.getD_some]
          rw [Node.childSumAt_add child path' k p', isSPre_cons_cons]
          simp
      · have h1 : lookupChild (addChild (Option.getD ch []) s₀ path' k) s =
            lookupChild (Option.getD ch []) s :=
          lookupChild_addChild_ne path' k hs
        rcases h : lookupChild (Option.getD ch []) s with _ | child
        · rw [Node.childSumAt_cons_none p' (by simpa using (h1.trans h)),
              Node.childSumAt_cons_none p' (by simpa using h), isSPre_cons_cons]
          simp [hs]
        · rw [Node.childSumAt_cons_some p' (by simpa using (h1.trans h)),
              Node.childSumAt_cons_some p' (by simpa using h), isSPre_cons_cons]
          simp [hs]

/-- After an insertion, every node on the inserted path exists. -/
theorem Node.atPath_add (t : Node) (path : List Nat) (k : Nat) :
    ∀ p : List Nat, isPre p path = true →
      ((Node.add t path k).atPath p).isSome = true
  | [], _ => by simp [Node.atPath]
  | s :: p', hpre => by
    obtain ⟨c, ch⟩ := t
    cases path with
    | nil => simp at hpre
    | cons s₀ path' =>
      rw [isPre_cons_cons] at hpre
      simp only [Bool.and_eq_true, decide_eq_true_eq] at hpre
      obtain ⟨rfl, hpre'⟩ := hpre
      rw [Node.add_cons]
      have hl := lookupChild_addChild_eq (l := Option.getD ch []) s path' k
      simp only [Node.atPath, Node.childrenList_mk, Option.getD_some, hl]
      exact Node.atPath_add _ path' k p' hpre'

/-- The keys after `addChild`: unchanged when `s` was present, else `s` is
appended at the end. -/
theorem addChild_keys (l : List (Nat × Node)) (s : Nat) (rest : List Nat) (k : Nat) :
    (addChild l s rest k).map Prod.fst =
      if s ∈ l.map Prod.fst then l.map Prod.fst else l.map Prod.fst ++ [s] := by
  induction l with
  | nil => rw [addChild_nil]; simp
  | cons p t ih =>
    obtain ⟨s', n⟩ := p
    rw [addChild_cons]
    by_cases he : s' = s
    · subst he
      simp
    · rw [if_neg he]
      simp only [List.map_cons, ih]
      by_cases hmem : s ∈ t.map Prod.fst
      · rw [if_pos hmem, if_pos (List.mem_cons_of_mem _ hmem)]
      · have hcond : s ∉ (s' :: t.map Prod.fst) := by
          simp only [List.mem_cons]
          rintro (rfl | hc)
          · exact he rfl
          · exact hmem hc
        rw [if_neg hmem, if_neg hcond]
        simp

/-- Every entry of `addChild l s rest k` is an old entry or the updated /
fresh entry at key `s`. -/
theorem mem_addChild {l : List (Nat × Node)} {s : Nat} {rest : List Nat}
    {k : Nat} {p : Nat × Node} (hp : p ∈ addChild l s rest k) :
    p ∈ l ∨ (p.1 = s ∧ ∃ n₀, (n₀ = Node.new ∨ (s, n₀) ∈ l) ∧
      p.2 = Node.add n₀ rest k) := by
  induction l with
  | nil =>
    rw [addChild_nil] at hp
    rcases List.mem_singleton.mp hp with rfl
    exact Or.inr ⟨rfl, Node.new, Or.inl rfl, rfl⟩
  | cons q t ih =>
    obtain ⟨s', n⟩ := q
    rw [addChild_cons] at hp
    split at hp
    · rename_i he
      subst he
      rcases List.mem_cons.mp hp with rfl | hm
      · exact Or.inr ⟨rfl, n, Or.inr (List.mem_cons_self _ _), rfl⟩
      · exact Or.inl (List.mem_cons_of_mem _ hm)
    · rcases List.mem_cons.mp hp with rfl | hm
      · exact Or.inl (List.mem_cons_self _ _)
      · rcases ih hm with h | ⟨h1, n₀, h2, h3⟩
        · exact Or.inl (List.mem_cons_of_mem _ h)
        · refine Or.inr ⟨h1, n₀, ?_, h3⟩
          rcases h2 with h2 | h2
          · exact Or.inl h2
          · exact Or.inr (List.mem_cons_of_mem _ h2)

/-- `Node::new` is well formed. -/
theorem Node.wfB_new : Node.wfB Node.new = true := by
  rw [Node.new, Node.wfB]

/-- `Node::add` preserves well-formedness. -/
theorem Node.wfB_add : ∀ (path : List Nat) (t : Node), t.wfB = true →
    ∀ k : Nat, (Node.add t path k).wfB = true
  | [], t, h, k => by
    obtain ⟨c, ch⟩ := t
    rw [Node.add_nil]
    rw [Node.wfB_mk] at h ⊢
    exact ⟨h.1, le_trans h.2.1 (by omega), h.2.2⟩
  | s :: rest, t, h, k => by
    obtain ⟨c, ch⟩ := t
    rw [Node.add_cons]
    rw [Node.wfB_mk] at h
    rw [Node.wfB_mk]
    refine ⟨?_, ?_, ?_⟩
    · rw [Option.getD_some, addChild_keys]
      split
      · exact h.1
      · exact List.Nodup.append h.1 (List.nodup_singleton s)
          (by
            rename_i hmem
            simp only [List.disjoint_singleton]
            simpa using hmem)
    · rw [Option.getD_some, childSumOf_addChild]
      exact Nat.add_le_add h.2.1 (le_refl k)
    · rw [Option.getD_some]
      intro p hp
      rcases mem_addChild hp with hm | ⟨_, n₀, hn₀, hadd⟩
      · exact h.2.2 p hm
      · rw [hadd]
        rcases hn₀ with rfl | hn₀
        · exact Node.wfB_add rest Node.new Node.wfB_new k
        · exact Node.wfB_add rest n₀ (h.2.2 (s, n₀) hn₀) k

/-- `Node::add` preserves key distinctness. -/
theorem Node.nodupB_add : ∀ (path : List Nat) (t : Node), t.nodupB = true →
    ∀ k : Nat, (Node.add t path k).nodupB = true
  | [], t, h, k => by
    obtain ⟨c, ch⟩ := t
    rw [Node.add_nil]
    rw [Node.nodupB_mk] at h ⊢
    exact h
  | s :: rest, t, h, k => by
    obtain ⟨c, ch⟩ := t
    rw [Node.add_cons]
    rw [Node.nodupB_mk] at h
    rw [Node.nodupB_mk]
    refine ⟨?_, ?_⟩
    · rw [Option.getD_some, addChild_keys]
      split
      · exact h.1
      · exact List.Nodup.append h.1 (List.nodup_singleton s)
          (by
            rename_i hmem
            simp only [List.disjoint_singleton]
            simpa using hmem)
    · rw [Option.getD_some]
      intro p hp
      rcases mem_addChild hp with hm | ⟨_, n₀, hn₀, hadd⟩
      · exact h.2 p hm
      · rw [hadd]
        rcases hn₀ with rfl | hn₀
        · exact Node.nodupB_add rest Node.new (by rw [Node.new, Node.nodupB]) k
        · exact Node.nodupB_add rest n₀ (h.2 (s, n₀) hn₀) k

/-! ### The aggregation invariant for built trees -/

theorem buildTree_snoc (rs : List (List Nat × Nat)) (r : List Nat × Nat) :
    buildTree (rs ++ [r]) = Node.add (buildTree rs) r.1 r.2 := by
  simp [buildTree, List.foldl_append]

theorem termSum_snoc (rs : List (List Nat × Nat)) (q : List Nat) (k : Nat)
    (p : List Nat) :
    termSum (rs ++ [(q, k)]) p = termSum rs p + (if q = p then k else 0) := by
  simp only [termSum, List.filter_append, List.map_append, List.sum_append]
  by_cases h : q = p <;> simp [List.filter, h]

theorem recordsSum_snoc (rs : List (List Nat × Nat)) (r : List Nat × Nat) :
    recordsSum (rs ++ [r]) = recordsSum rs + r.2 := by
  simp [recordsSum]

theorem ite_isPre_split (p path : List Nat) (k : Nat) :
    (if isPre p path then k else 0) =
      (if isSPre p path then k else 0) + (if path = p then k else 0) := by
  by_cases he : p = path
  · subst he
    simp [isSPre]
  · have he' : ¬ (path = p) := fun h => he h.symm
    simp [isSPre, he, he']

/-- Every node of a tree built from a record list satisfies the aggregation
equation: its count is the total of records terminating exactly there plus
the counts of its children. -/
theorem buildTree_aggregation (records : List (List Nat × Nat)) (p : List Nat) :
    (buildTree records).countAt p =
      termSum records p + (buildTree records).childSumAt p := by
  induction records using List.reverseRecOn with
  | nil => simp [buildTree, termSum]
  | append_singleton rs r ih =>
    obtain ⟨q, k⟩ := r
    rw [buildTree_snoc, Node.countAt_add, Node.childSumAt_add, termSum_snoc,
        ih, ite_isPre_split p q k]
    dsimp only
    omega

/-- The root count of a built tree is the total of all record counts. -/
theorem buildTree_root_count (records : List (List Nat × Nat)) :
    (buildTree records).count = recordsSum records := by
  induction records using List.reverseRecOn with
  | nil => simp [buildTree, recordsSum, Node.new]
  | append_singleton rs r ih =>
    rw [buildTree_snoc, Node.count_add, recordsSum_snoc, ih]

/-- A single child's count is at most the children-count sum. -/
theorem count_le_childSumOf {l : List (Nat × Node)} {s : Nat} {c : Node}
    (h : (s, c) ∈ l) : c.count ≤ childSumOf l := by
  induction l with
  | nil => simp at h
  | cons q t ih =>
    rcases List.mem_cons.mp h with rfl | hm
    · simp only [childSumOf, List.map_cons, List.sum_cons]
      omega
    · have := ih hm
      obtain ⟨s', n⟩ := q
      simp only [childSumOf, List.map_cons, List.sum_cons] at this ⊢
      omega

/-! ### Doubling: inserting twice equals inserting once with twice the count -/

theorem addChild_addChild {rest : List Nat} {k : Nat}
    (IH : ∀ t : Node, Node.add (Node.add t rest k) rest k = Node.add t rest (2 * k)) :
    ∀ (l : List (Nat × Node)) (s : Nat),
      addChild (addChild l s rest k) s rest k = addChild l s rest (2 * k)
  | [], s => by
    rw [addChild_nil, addChild_cons, if_pos rfl, addChild_nil, IH]
  | (s', n) :: t, s => by
    by_cases he : s' = s
    · rw [addChild_cons, addChild_cons, if_pos he, if_pos he, addChild_cons,
          if_pos he, IH]
    · rw [addChild_cons, addChild_cons, if_neg he, if_neg he, addChild_cons,
          if_neg he, addChild_addChild IH t s]

theorem Node.add_add : ∀ (path : List Nat) (t : Node) (k : Nat),
    Node.add (Node.add t path k) path k = Node.add t path (2 * k)
  | [], t, k => by
    obtain ⟨c, ch⟩ := t
    rw [Node.add_nil, Node.add_nil, Node.add_nil]
    congr 1
    omega
  | s :: rest, t, k => by
    obtain ⟨c, ch⟩ := t
    rw [Node.add_cons, Node.add_cons, Node.add_cons]
    simp only [Option.getD_some]
    rw [addChild_addChild (fun t' => Node.add_add rest t' k)]
    congr 1
    omega

/-! ### Depth Resolver lemmas -/

theorem max?_nil : ([] : List Nat).max? = none := rfl

theorem max?_cons (a : Nat) (as : List Nat) :
    (a :: as).max? = some (as.foldl Nat.max a) := rfl

theorem foldl_max_ge_init (a : Nat) (xs : List Nat) : a ≤ xs.foldl Nat.max a := by
  induction xs generalizing a with
  | nil => exact le_refl a
  | cons x t ih => exact le_trans (Nat.le_max_left a x) (ih (Nat.max a x))

theorem foldl_max_le {xs ys : List Nat} (h : List.Forall₂ (· ≤ ·) xs ys) :
    ∀ {a b : Nat}, a ≤ b → xs.foldl Nat.max a ≤ ys.foldl Nat.max b := by
  induction h with
  | nil => intro a b hab; exact hab
  | cons hxy _ ih =>
    intro a b hab
    exact ih (max_le_max hab hxy)

theorem childDepths_mem {l : List (Nat × Node)} {m d x : Nat} :
    x ∈ childDepths l m d ↔ ∃ p ∈ l, x = Node.depth p.2 m d := by
  induction l with
  | nil => simp [childDepths_nil]
  | cons p t ih =>
    obtain ⟨s, n⟩ := p
    rw [childDepths_cons]
    simp only [List.mem_cons, ih, List.mem_cons]
    constructor
    · rintro (rfl | ⟨q, hq, rfl⟩)
      · exact ⟨(s, n), Or.inl rfl, rfl⟩
      · exact ⟨q, Or.inr hq, rfl⟩
    · rintro ⟨q, hq | hq, rfl⟩
      · rw [hq]
        exact Or.inl rfl
      · exact Or.inr ⟨q, hq, rfl⟩

/-- The Depth Resolver never reports less than the starting depth. -/
theorem Node.depth_ge (n : Node) : ∀ (m d : Nat), d ≤ n.depth m d := by
  induction n using Node.ind with
  | h c ch ih =>
    intro m d
    cases ch with
    | none => rw [Node.depth_none]
    | some l =>
      rw [Node.depth_some]
      split
      · exact le_refl d
      · cases hl : childDepths l m (d + 1) with
        | nil => simp [max?_nil]
        | cons x xs =>
          rw [max?_cons]
          simp only [Option.getD_some]
          have hx : x ∈ childDepths l m (d + 1) := by rw [hl]; exact List.mem_cons_self x xs
          obtain ⟨p, hp, rfl⟩ := childDepths_mem.mp hx
          have h1 : d + 1 ≤ Node.depth p.2 m (d + 1) := ih p hp m (d + 1)
          have h2 := foldl_max_ge_init (Node.depth p.2 m (d + 1)) xs
          omega

/-- Children's depth lists at two thresholds are pointwise ordered. -/
theorem childDepths_forall₂ {l : List (Nat × Node)} {m₁ m₂ d : Nat}
    (ih : ∀ p ∈ l, ∀ d', Node.depth p.2 m₂ d' ≤ Node.depth p.2 m₁ d') :
    List.Forall₂ (· ≤ ·) (childDepths l m₂ d) (childDepths l m₁ d) := by
  induction l with
  | nil => simp [childDepths_nil]
  | cons p t iht =>
    obtain ⟨s, n⟩ := p
    rw [childDepths_cons, childDepths_cons]
    exact List.Forall₂.cons (ih (s, n) (List.mem_cons_self _ _) d)
      (iht (fun q hq => ih q (List.mem_cons_of_mem _ hq)))

/-- Raising the threshold never increases the effective depth. -/
theorem Node.depth_mono (n : Node) : ∀ (m₁ m₂ d : Nat), m₁ ≤ m₂ →
    n.depth m₂ d ≤ n.depth m₁ d := by
  induction n using Node.ind with
  | h c ch ih =>
    intro m₁ m₂ d hm
    by_cases h1 : c < m₁
    · have h2 : c < m₂ := lt_of_lt_of_le h1 hm
      cases ch with
      | none => rw [Node.depth_none, Node.depth_none]
      | some l => rw [Node.depth_some, Node.depth_some, if_pos h1, if_pos h2]
    · by_cases h2 : c < m₂
      · have hge : d ≤ Node.depth (.mk c ch) m₁ d := Node.depth_ge _ m₁ d
        cases ch with
        | none => rw [Node.depth_none] at hge ⊢; rw [Node.depth_none]
        | some l =>
          rw [Node.depth_some, if_pos h2]
          exact Node.depth_ge _ m₁ d
      · cases ch with
        | none => rw [Node.depth_none, Node.depth_none]
        | some l =>
          rw [Node.depth_some, Node.depth_some, if_neg h1, if_neg h2]
          have hf := @childDepths_forall₂ l m₁ m₂ (d + 1)
            (fun p hp d' => ih p hp m₁ m₂ d' hm)
          cases hl2 : childDepths l m₂ (d + 1) with
          | nil =>
            cases hl1 : childDepths l m₁ (d + 1) with
            | nil => simp [max?_nil]
            | cons y ys =>
              rw [max?_nil, max?_cons]
              simp only [Option.getD_none, Option.getD_some]
              have hy : y ∈ childDepths l m₁ (d + 1) := by
                rw [hl1]; exact List.mem_cons_self y ys
              obtain ⟨p, hp, rfl⟩ := childDepths_mem.mp hy
              exact le_trans (le_trans (Nat.le_succ d) (Node.depth_ge p.2 m₁ (d+1)))
                (foldl_max_ge_init _ ys)
          | cons x xs =>
            cases hl1 : childDepths l m₁ (d + 1) with
            | nil =>
              rw [hl2, hl1] at hf
              cases hf
            | cons y ys =>
              rw [hl2, hl1] at hf
              rw [max?_cons, max?_cons]
              simp only [Option.getD_some]
              cases hf with
              | cons hxy hrest => exact foldl_max_le hrest hxy

theorem foldl_max_const {xs : List Nat} {a : Nat} (h : ∀ x ∈ xs, x ≤ a) :
    xs.foldl Nat.max a = a := by
  induction xs with
  | nil => rfl
  | cons x t ih =>
    have hx : Nat.max a x = a := Nat.max_eq_left (h x (List.mem_cons_self _ _))
    simp only [List.foldl_cons, hx]
    exact ih (fun y hy => h y (List.mem_cons_of_mem _ hy))

/-- A below-threshold node contributes exactly its own depth. -/
theorem Node.depth_below {n : Node} {m d : Nat} (h : n.count < m) :
    n.depth m d = d := by
  obtain ⟨c, _ | l⟩ := n
  · rw [Node.depth_none]
  · rw [Node.depth_some, if_pos (by simpa using h)]

/-- A node at or above threshold whose children are all below threshold
resolves to one row beyond its own depth. -/
theorem Node.depth_children_below {c : Nat} {l : List (Nat × Node)} {m d : Nat}
    (hc : ¬ c < m) (hne : l ≠ []) (hbelow : ∀ p ∈ l, p.2.count < m) :
    Node.depth (.mk c (some l)) m d = d + 1 := by
  rw [Node.depth_some, if_neg hc]
  cases l with
  | nil => exact absurd rfl hne
  | cons q t =>
    rw [childDepths_cons, max?_cons]
    simp only [Option.getD_some]
    have hq : Node.depth q.2 m (d + 1) = d + 1 :=
      Node.depth_below (hbelow q (List.mem_cons_self _ _))
    rw [hq]
    exact foldl_max_const (fun x hx => by
      obtain ⟨p, hp, rfl⟩ := childDepths_mem.mp hx
      rw [Node.depth_below (hbelow p (List.mem_cons_of_mem _ hp))])

/-! ### Offsets of children inside the emitted rectangle sequence -/

/-- Sum of the counts of the entries of `l` whose key is below `s`. -/
def belowSumL (l : List (Nat × Node)) (s : Nat) : Nat :=
  ((l.filter (fun p => decide (p.1 < s))).map (fun p => p.2.count)).sum

/-- Sum, over the keys of `ks` below `s`, of the looked-up counts. -/
def sumBelowKeys (ks : List Nat) (l : List (Nat × Node)) (s : Nat) : Nat :=
  ((ks.filter (fun j => decide (j < s))).map (fun j => (lookupD l j).count)).sum

/-- Sum over all keys of `ks` of the looked-up counts. -/
def sumCountsKeys (ks : List Nat) (l : List (Nat × Node)) : Nat :=
  (ks.map (fun j => (lookupD l j).count)).sum

theorem sumBelowKeys_nil (l : List (Nat × Node)) (s : Nat) :
    sumBelowKeys [] l s = 0 := rfl

theorem sumBelowKeys_cons (k : Nat) (ks : List Nat) (l : List (Nat × Node)) (s : Nat) :
    sumBelowKeys (k :: ks) l s =
      (if k < s then (lookupD l k).count else 0) + sumBelowKeys ks l s := by
  by_cases h : k < s <;> simp [sumBelowKeys, List.filter, h]

theorem sumCountsKeys_cons (k : Nat) (ks : List Nat) (l : List (Nat × Node)) :
    sumCountsKeys (k :: ks) l = (lookupD l k).count + sumCountsKeys ks l := by
  simp [sumCountsKeys]

/-- In a list with distinct keys the looked-up counts of the keys sum to the
children-count sum, whatever order the keys are enumerated in. -/
theorem sumCountsKeys_perm {ks : List Nat} {l : List (Nat × Node)}
    (hperm : List.Perm ks (l.map Prod.fst)) (hnd : (l.map Prod.fst).Nodup) :
    sumCountsKeys ks l = childSumOf l := by
  have h1 : sumCountsKeys ks l = sumCountsKeys (l.map Prod.fst) l :=
    List.Perm.sum_eq (List.Perm.map _ hperm)
  rw [h1]
  clear h1 hperm
  induction l with
  | nil => rfl
  | cons p t ih =>
    obtain ⟨s, n⟩ := p
    simp only [List.map_cons, List.nodup_cons] at hnd
    rw [List.map_cons, sumCountsKeys_cons]
    have hl : lookupD ((s, n) :: t) s = n := by
      simp [lookupD, lookupChild_cons]
    rw [hl]
    have ht : sumCountsKeys (t.map Prod.fst) ((s, n) :: t) =
        sumCountsKeys (t.map Prod.fst) t := by
      have : ∀ j ∈ t.map Prod.fst,
          (lookupD ((s, n) :: t) j).count = (lookupD t j).count := by
        intro j hj
        have hne : ¬ (s = j) := fun he => hnd.1 (he ▸ hj)
        simp [lookupD, lookupChild_cons, hne]
      simp only [sumCountsKeys]
      exact congrArg List.sum (List.map_congr_left this)
    rw [ht, ih hnd.2]
    simp [childSumOf]

/-- Likewise for the running below-`s` sums. -/
theorem sumBelowKeys_perm {ks : List Nat} {l : List (Nat × Node)} {s : Nat}
    (hperm : List.Perm ks (l.map Prod.fst)) (hnd : (l.map Prod.fst).Nodup) :
    sumBelowKeys ks l s = belowSumL l s := by
  have h1 : sumBelowKeys ks l s = sumBelowKeys (l.map Prod.fst) l s :=
    List.Perm.sum_eq (List.Perm.map _ (List.Perm.filter _ hperm))
  rw [h1]
  clear h1 hperm
  induction l with
  | nil => rfl
  | cons p t ih =>
    obtain ⟨s', n⟩ := p
    simp only [List.map_cons, List.nodup_cons] at hnd
    rw [List.map_cons, sumBelowKeys_cons]
    have hl : lookupD ((s', n) :: t) s' = n := by
      simp [lookupD, lookupChild_cons]
    have ht : sumBelowKeys (t.map Prod.fst) ((s', n) :: t) s =
        sumBelowKeys (t.map Prod.fst) t s := by
      have : ∀ j ∈ (t.map Prod.fst).filter (fun j => decide (j < s)),
          (lookupD ((s', n) :: t) j).count = (lookupD t j).count := by
        intro j hj
        have hj' := List.mem_of_mem_filter hj
        have hne : ¬ (s' = j) := fun he => hnd.1 (he ▸ hj')
        simp [lookupD, lookupChild_cons, hne]
      simp only [sumBelowKeys]
      exact congrArg List.sum (List.map_congr_left this)
    rw [hl, ht, ih hnd.2]
    by_cases h : s' < s
    · simp [belowSumL, List.filter, h]
    · simp [belowSumL, List.filter, h]

/-- Every rectangle emitted while processing a key worklist is annotated with
a nonempty path whose head is one of the keys. -/
theorem pathRectsKeys_fst_head {l : List (Nat × Node)} {d : Nat} :
    ∀ (ks : List Nat) (off : Nat) (pr : List Nat × Rect),
      pr ∈ pathRectsKeys ks l off d → ∃ k ∈ ks, ∃ q, pr.1 = k :: q := by
  intro ks
  induction ks with
  | nil =>
    intro off pr hpr
    rw [pathRectsKeys_nil] at hpr
    simp at hpr
  | cons k ks ih =>
    intro off pr hpr
    rcases h : lookupChild l k with _ | c
    · rw [pathRectsKeys_cons_none ks off d h] at hpr
      obtain ⟨k', hk', q, hq⟩ := ih off pr hpr
      exact ⟨k', List.mem_cons_of_mem _ hk', q, hq⟩
    · rw [pathRectsKeys_cons_some ks off d h] at hpr
      rcases List.mem_append.mp hpr with hm | hm
      · obtain ⟨pr₀, _, rfl⟩ := List.mem_map.mp hm
        exact ⟨k, List.mem_cons_self _ _, pr₀.1, rfl⟩
      · obtain ⟨k', hk', q, hq⟩ := ih (off + c.count) pr hm
        exact ⟨k', List.mem_cons_of_mem _ hk', q, hq⟩

/-- The only rectangle annotated with the empty path is the node's own. -/
theorem mem_pathRectsNode_nil {n : Node} {nm off d : Nat} {r : Rect} :
    ([], r) ∈ pathRectsNode n nm off d ↔ r = ⟨nm, n.count, d, off⟩ := by
  rw [pathRectsNode_def]
  constructor
  · intro h
    rcases List.mem_append.mp h with hm | hm
    · obtain ⟨k, _, q, hq⟩ := pathRectsKeys_fst_head _ _ _ hm
      cases hq
    · simpa using hm
  · rintro rfl
    exact List.mem_append.mpr (Or.inr (by simp))

/-- Walking into a key worklist: a rectangle annotated `s :: q` comes from
the block of the child at key `s`, which starts at the accumulated offset of
the keys before `s`. -/
theorem mem_pathRectsKeys_cons {l : List (Nat × Node)} {d : Nat} :
    ∀ (ks : List Nat), List.Sorted (· < ·) ks →
      ∀ (off : Nat) (s : Nat) (q : List Nat) (r : Rect),
      ((s :: q, r) ∈ pathRectsKeys ks l off d ↔
        s ∈ ks ∧ ∃ c, lookupChild l s = some c ∧
          (q, r) ∈ pathRectsNode c s (off + sumBelowKeys ks l s) (d + 1)) := by
  intro ks
  induction ks with
  | nil =>
    intro _ off s q r
    rw [pathRectsKeys_nil]
    simp
  | cons k ks ih =>
    intro hsort off s q r
    have hsort' : List.Sorted (· < ·) ks := (List.sorted_cons.mp hsort).2
    have hklt : ∀ j ∈ ks, k < j := (List.sorted_cons.mp hsort).1
    rcases h : lookupChild l k with _ | c
    · rw [pathRectsKeys_cons_none ks off d h, ih hsort' off s q r]
      have hsum : sumBelowKeys (k :: ks) l s = sumBelowKeys ks l s := by
        rw [sumBelowKeys_cons]
        simp [lookupD, h, Node.new]
      rw [hsum]
      constructor
      · rintro ⟨hmem, hc⟩
        exact ⟨List.mem_cons_of_mem _ hmem, hc⟩
      · rintro ⟨hmem, c, hc, hblock⟩
        rcases List.mem_cons.mp hmem with rfl | hmem
        · rw [h] at hc
          cases hc
        · exact ⟨hmem, c, hc, hblock⟩
    · rw [pathRectsKeys_cons_some ks off d h]
      by_cases hs : s = k
      · subst hs
        have hnot : s ∉ ks := fun hm => lt_irrefl s (hklt s hm)
        have hsum : sumBelowKeys (s :: ks) l s = 0 := by
          rw [sumBelowKeys_cons]
          have hz : ∀ j ∈ ks.filter (fun j => decide (j < s)), False := by
            intro j hj
            have h1 := List.mem_of_mem_filter hj
            have h2 := List.of_mem_filter hj
            simp only [decide_eq_true_eq] at h2
            exact lt_asymm (hklt j h1) h2
          have : ks.filter (fun j => decide (j < s)) = [] :=
            List.eq_nil_iff_forall_not_mem.mpr (fun j hj => hz j hj)
          simp [sumBelowKeys, this, lt_irrefl]
        rw [hsum]
        constructor
        · intro hm
          rcases List.mem_append.mp hm with hm | hm
          · obtain ⟨⟨q₀, r₀⟩, hq₀, he⟩ := List.mem_map.mp hm
            simp only [Prod.mk.injEq, List.cons.injEq] at he
            obtain ⟨⟨_, rfl⟩, rfl⟩ := he
            refine ⟨List.mem_cons_self _ _, c, h, ?_⟩
            simpa using hq₀
          · obtain ⟨hmem, _⟩ := (ih hsort' (off + c.count) s q r).mp hm
            exact absurd hmem hnot
        · rintro ⟨_, c', hc', hblock⟩
          rw [h] at hc'
          cases hc'
          refine List.mem_append.mpr (Or.inl ?_)
          refine List.mem_map.mpr ⟨(q, r), ?_, rfl⟩
          simpa using hblock
      · have hsum : sumBelowKeys (k :: ks) l s =
            (if k < s then c.count else 0) + sumBelowKeys ks l s := by
          rw [sumBelowKeys_cons]
          simp [lookupD, h]
        constructor
        · intro hm
          rcases List.mem_append.mp hm with hm | hm
          · obtain ⟨⟨q₀, r₀⟩, _, he⟩ := List.mem_map.mp hm
            simp only [Prod.mk.injEq, List.cons.injEq] at he
            exact absurd he.1.1.symm hs
          · obtain ⟨hmem, c', hc', hblock⟩ := (ih hsort' (off + c.count) s q r).mp hm
            have hks : k < s := hklt s hmem
            refine ⟨List.mem_cons_of_mem _ hmem, c', hc', ?_⟩
            rw [hsum, if_pos hks]
            have : off + c.count + sumBelowKeys ks l s =
                off + (c.count + sumBelowKeys ks l s) := by omega
            rw [← this]
            exact hblock
        · rintro ⟨hmem, c', hc', hblock⟩
          rcases List.mem_cons.mp hmem with rfl | hmem
          · exact absurd rfl hs
          · have hks : k < s := hklt s hmem
            refine List.mem_append.mpr (Or.inr ?_)
            refine (ih hsort' (off + c.count) s q r).mpr ⟨hmem, c', hc', ?_⟩
            rw [hsum, if_pos hks] at hblock
            have : off + c.count + sumBelowKeys ks l s =
                off + (c.count + sumBelowKeys ks l s) := by omega
            rw [this]
            exact hblock

/-- Walking one step into a node's emitted block: rectangles annotated
`s :: q` are exactly the block of the child at `s`, placed after the earlier
siblings' counts. -/
theorem mem_pathRectsNode_cons {n : Node}
    (hnd : (n.childrenList.map Prod.fst).Nodup) {nm off d s : Nat}
    {q : List Nat} {r : Rect} :
    ((s :: q, r) ∈ pathRectsNode n nm off d ↔
      ∃ c, lookupChild n.childrenList s = some c ∧
        (q, r) ∈ pathRectsNode c s (off + belowSumL n.childrenList s) (d + 1)) := by
  have hsort : List.Sorted (· < ·) (sortKeys (n.childrenList.map Prod.fst)) :=
    sortKeys_strict hnd
  have hsum : sumBelowKeys (sortKeys (n.childrenList.map Prod.fst))
      n.childrenList s = belowSumL n.childrenList s :=
    sumBelowKeys_perm (sortKeys_perm _) hnd
  rw [pathRectsNode_def, List.mem_append,
      mem_pathRectsKeys_cons _ hsort off s q r, hsum]
  constructor
  · rintro (⟨_, hc⟩ | hm)
    · exact hc
    · simp at hm
  · rintro ⟨c, hc, hblock⟩
    refine Or.inl ⟨?_, c, hc, hblock⟩
    rw [sortKeys_mem]
    exact lookupChild_isSome.mp (by rw [hc]; rfl)

theorem Node.nodupB_keys {n : Node} (h : n.nodupB = true) :
    (n.childrenList.map Prod.fst).Nodup := by
  obtain ⟨c, ch⟩ := n
  exact (Node.nodupB_mk.mp h).1

theorem Node.nodupB_child {n : Node} {s : Nat} {c : Node}
    (h : n.nodupB = true) (hc : lookupChild n.childrenList s = some c) :
    c.nodupB = true := by
  obtain ⟨cc, ch⟩ := n
  exact (Node.nodupB_mk.mp h).2 (s, c) (lookupChild_mem hc)

theorem Node.wfB_keys {n : Node} (h : n.wfB = true) :
    (n.childrenList.map Prod.fst).Nodup := by
  obtain ⟨c, ch⟩ := n
  exact (Node.wfB_mk.mp h).1

theorem Node.wfB_childSum {n : Node} (h : n.wfB = true) :
    childSumOf n.childrenList ≤ n.count := by
  obtain ⟨c, ch⟩ := n
  exact (Node.wfB_mk.mp h).2.1

theorem Node.wfB_child {n : Node} {s : Nat} {c : Node}
    (h : n.wfB = true) (hc : lookupChild n.childrenList s = some c) :
    c.wfB = true := by
  obtain ⟨cc, ch⟩ := n
  exact (Node.wfB_mk.mp h).2.2 (s, c) (lookupChild_mem hc)

/-- A rectangle is emitted for a path exactly when the tree has a node
there. -/
theorem pathRects_mem_iff : ∀ (p : List Nat) (n : Node), n.nodupB = true →
    ∀ (nm off d : Nat),
      ((∃ r, (p, r) ∈ pathRectsNode n nm off d) ↔ (n.atPath p).isSome = true)
  | [], n, _, nm, off, d => by
    simp only [mem_pathRectsNode_nil, Node.atPath]
    exact ⟨fun _ => rfl, fun _ => ⟨_, rfl⟩⟩
  | s :: q, n, hnd, nm, off, d => by
    simp only [mem_pathRectsNode_cons (Node.nodupB_keys hnd)]
    rcases hc : lookupChild n.childrenList s with _ | c
    · simp only [Node.atPath, hc]
      constructor
      · rintro ⟨r, c, hsome, _⟩
        cases hsome
      · intro hfalse
        cases hfalse
    · simp only [Node.atPath, hc]
      rw [← pathRects_mem_iff q c (Node.nodupB_child hnd hc) s
            (off + belowSumL n.childrenList s) (d + 1)]
      constructor
      · rintro ⟨r, c', hc', hblock⟩
        cases hc'
        exact ⟨r, hblock⟩
      · rintro ⟨r, hblock⟩
        exact ⟨r, c, rfl, hblock⟩

theorem pathRectsKeys_fst_nodup {l : List (Nat × Node)} {d : Nat}
    (hblock : ∀ k c, lookupChild l k = some c →
      ∀ (nm off d' : Nat), ((pathRectsNode c nm off d').map Prod.fst).Nodup) :
    ∀ (ks : List Nat), List.Sorted (· < ·) ks →
      ∀ off, ((pathRectsKeys ks l off d).map Prod.fst).Nodup := by
  intro ks
  induction ks with
  | nil =>
    intro _ off
    rw [pathRectsKeys_nil]
    simp
  | cons k ks ih =>
    intro hsort off
    have hsort' := (List.sorted_cons.mp hsort).2
    have hklt := (List.sorted_cons.mp hsort).1
    rcases h : lookupChild l k with _ | c
    · rw [pathRectsKeys_cons_none ks off d h]
      exact ih hsort' off
    · rw [pathRectsKeys_cons_some ks off d h, List.map_append]
      refine List.Nodup.append ?_ (ih hsort' (off + c.count)) ?_
      · have h1 : ((pathRectsNode c k off (d + 1)).map
            (fun pr => (k :: pr.1, pr.2))).map Prod.fst =
            ((pathRectsNode c k off (d + 1)).map Prod.fst).map
              (fun q => k :: q) := by
          simp [List.map_map]
        rw [h1]
        exact (hblock k c h k off (d + 1)).map
          (fun a b hab => by simpa using hab)
      · intro x hx1 hx2
        obtain ⟨a, ha, rfl⟩ := List.mem_map.mp hx1
        obtain ⟨pr₂, _, rfl⟩ := List.mem_map.mp ha
        obtain ⟨pr₁, hpr₁, he⟩ := List.mem_map.mp hx2
        obtain ⟨k', hk', q', hq'⟩ := pathRectsKeys_fst_head ks (off + c.count) pr₁ hpr₁
        rw [hq'] at he
        have hk : k' = k := (List.cons.injEq _ _ _ _).mp he |>.1
        subst hk
        exact lt_irrefl k' (hklt k' hk')

/-- No path annotates two different rectangles: the emitted sequence hits
each tree node exactly once. -/
theorem pathRectsNode_fst_nodup {n : Node} (hnd : n.nodupB = true) :
    ∀ (nm off d : Nat), ((pathRectsNode n nm off d).map Prod.fst).Nodup := by
  induction n using Node.ind with
  | h cc ch ih =>
    intro nm off d
    rw [pathRectsNode_def, List.map_append]
    refine List.Nodup.append ?_ (by simp) ?_
    · refine pathRectsKeys_fst_nodup ?_ _
        (sortKeys_strict (Node.nodupB_keys hnd)) off
      intro k c hk nm' off' d'
      exact ih (k, c) (lookupChild_mem (by simpa using hk))
        (Node.nodupB_child hnd (by simpa using hk)) nm' off' d'
    · intro x hx1 hx2
      obtain ⟨pr, hpr, rfl⟩ := List.mem_map.mp hx1
      obtain ⟨k, _, q, hq⟩ := pathRectsKeys_fst_head _ _ _ hpr
      simp only [List.map_cons, List.map_nil, List.mem_singleton] at hx2
      rw [hq] at hx2
      cases hx2

/-- The rectangle emitted for a direct child `k`. -/
theorem mem_pathRectsNode_single {n : Node}
    (hnd : (n.childrenList.map Prod.fst).Nodup) {nm off d k : Nat} {r : Rect} :
    (([k], r) ∈ pathRectsNode n nm off d ↔
      ∃ c, lookupChild n.childrenList k = some c ∧
        r = ⟨k, c.count, d + 1, off + belowSumL n.childrenList k⟩) := by
  rw [mem_pathRectsNode_cons hnd]
  constructor
  · rintro ⟨c, hc, hblock⟩
    exact ⟨c, hc, mem_pathRectsNode_nil.mp hblock⟩
  · rintro ⟨c, hc, rfl⟩
    exact ⟨c, hc, mem_pathRectsNode_nil.mpr rfl⟩

theorem belowSumL_cons (s' : Nat) (n : Node) (t : List (Nat × Node)) (s : Nat) :
    belowSumL ((s', n) :: t) s =
      (if s' < s then n.count else 0) + belowSumL t s := by
  by_cases h : s' < s <;> simp [belowSumL, List.filter, h]

theorem belowSumL_le_childSum (l : List (Nat × Node)) (s : Nat) :
    belowSumL l s ≤ childSumOf l := by
  induction l with
  | nil => exact le_refl 0
  | cons p t ih =>
    obtain ⟨s', n⟩ := p
    rw [belowSumL_cons]
    simp only [childSumOf, List.map_cons, List.sum_cons]
    change _ ≤ n.count + childSumOf t
    split <;> omega

theorem belowSumL_le_of_le (l : List (Nat × Node)) {a b : Nat} (hab : a ≤ b) :
    belowSumL l a ≤ belowSumL l b := by
  induction l with
  | nil => exact le_refl 0
  | cons p t ih =>
    obtain ⟨s', n⟩ := p
    rw [belowSumL_cons, belowSumL_cons]
    by_cases h : s' < a
    · rw [if_pos h, if_pos (lt_of_lt_of_le h hab)]
      omega
    · rw [if_neg h]
      split <;> omega

/-- A child's span starts after the spans of all lexically-smaller-key
siblings and ends within the total of all children. -/
theorem belowSumL_add_le {l : List (Nat × Node)} {s : Nat} {c : Node}
    (hnd : (l.map Prod.fst).Nodup) (h : (s, c) ∈ l) :
    belowSumL l s + c.count ≤ childSumOf l := by
  induction l with
  | nil => simp at h
  | cons p t ih =>
    obtain ⟨s', n⟩ := p
    simp only [List.map_cons, List.nodup_cons] at hnd
    rw [belowSumL_cons]
    simp only [childSumOf, List.map_cons, List.sum_cons]
    change _ ≤ n.count + childSumOf t
    rcases List.mem_cons.mp h with he | hm
    · cases he
      rw [if_neg (lt_irrefl s)]
      have := belowSumL_le_childSum t s
      omega
    · have hle := ih hnd.2 hm
      split <;> omega

/-- Sibling order: a lexically-smaller key's whole span precedes the
larger key's offset. -/
theorem belowSumL_mono {l : List (Nat × Node)} {k₁ k₂ : Nat} {c₁ : Node}
    (hnd : (l.map Prod.fst).Nodup) (h₁ : (k₁, c₁) ∈ l) (hlt : k₁ < k₂) :
    belowSumL l k₁ + c₁.count ≤ belowSumL l k₂ := by
  induction l with
  | nil => simp at h₁
  | cons p t ih =>
    obtain ⟨s', n⟩ := p
    simp only [List.map_cons, List.nodup_cons] at hnd
    rw [belowSumL_cons, belowSumL_cons]
    rcases List.mem_cons.mp h₁ with he | hm
    · cases he
      rw [if_neg (lt_irrefl k₁), if_pos hlt]
      have := belowSumL_le_of_le t (le_of_lt hlt)
      omega
    · have hle := ih hnd.2 hm
      by_cases h : s' < k₁
      · rw [if_pos h, if_pos (lt_trans h hlt)]
        omega
      · rw [if_neg h]
        split <;> omega

/-- Two thresholds that classify every key of `l` identically give the same
below-sum. -/
theorem belowSumL_congr {l : List (Nat × Node)} {a b : Nat}
    (h : ∀ p ∈ l, (p.1 < a ↔ p.1 < b)) : belowSumL l a = belowSumL l b := by
  induction l with
  | nil => rfl
  | cons p t ih =>
    obtain ⟨s', n⟩ := p
    rw [belowSumL_cons, belowSumL_cons]
    have hiff := h (s', n) (List.mem_cons_self _ _)
    have iht := ih (fun q hq => h q (List.mem_cons_of_mem _ hq))
    by_cases h2 : s' < a
    · rw [if_pos h2, if_pos (hiff.mp h2), iht]
    · rw [if_neg h2, if_neg (fun h1 => h2 (hiff.mpr h1)), iht]

/-- Adjacent siblings: when no key lies strictly between `k₁` and `k₂`, the
span of `k₁` ends exactly where `k₂` begins. -/
theorem belowSumL_adjacent {l : List (Nat × Node)} {k₁ k₂ : Nat} {c₁ : Node}
    (hnd : (l.map Prod.fst).Nodup) (h₁ : (k₁, c₁) ∈ l) (hlt : k₁ < k₂)
    (hno : ∀ p ∈ l, ¬(k₁ < p.1 ∧ p.1 < k₂)) :
    belowSumL l k₂ = belowSumL l k₁ + c₁.count := by
  induction l with
  | nil => simp at h₁
  | cons p t ih =>
    obtain ⟨s', n⟩ := p
    simp only [List.map_cons, List.nodup_cons] at hnd
    rw [belowSumL_cons, belowSumL_cons]
    rcases List.mem_cons.mp h₁ with he | hm
    · cases he
      rw [if_neg (lt_irrefl k₁), if_pos hlt]
      have hcongr : belowSumL t k₂ = belowSumL t k₁ := by
        apply belowSumL_congr
        intro p hp
        have hne : p.1 ≠ k₁ := fun he2 =>
          hnd.1 (he2 ▸ List.mem_map.mpr ⟨p, hp, rfl⟩)
        have hnb := hno p (List.mem_cons_of_mem _ hp)
        simp only [not_and] at hnb
        constructor
        · intro h2
          rcases lt_or_ge p.1 k₁ with h3 | h3
          · exact h3
          · exact absurd h2 (hnb (lt_of_le_of_ne h3 (Ne.symm hne)))
        · intro h1
          exact lt_trans h1 hlt
      rw [hcongr]
      omega
    · have hs'ne : s' ≠ k₁ := by
        intro he
        exact hnd.1 (he ▸ List.mem_map.mpr ⟨(k₁, c₁), hm, rfl⟩)
      have hnb := hno (s', n) (List.mem_cons_self _ _)
      simp only [not_and] at hnb
      have ih' := ih hnd.2 hm (fun p hp => hno p (List.mem_cons_of_mem _ hp))
      by_cases h : s' < k₁
      · rw [if_pos h, if_pos (lt_trans h hlt), ih']
        omega
      · have hgt : k₁ < s' := lt_of_le_of_ne (le_of_not_lt h) (Ne.symm hs'ne)
        have h2 : ¬ s' < k₂ := hnb hgt
        rw [if_neg h, if_neg h2, ih']
        omega

/-- Every rectangle of a key worklist lies within the span starting at the
running offset and extending by the keys' total count. -/
theorem pathRectsKeys_span {l : List (Nat × Node)} {d : Nat}
    (hch : ∀ k c, lookupChild l k = some c → ∀ (nm off d' : Nat)
      (p : List Nat) (r : Rect), (p, r) ∈ pathRectsNode c nm off d' →
      off ≤ r.offset ∧ r.offset + r.count ≤ off + c.count) :
    ∀ (ks : List Nat) (off : Nat) (p : List Nat) (r : Rect),
      (p, r) ∈ pathRectsKeys ks l off d →
      off ≤ r.offset ∧ r.offset + r.count ≤ off + sumCountsKeys ks l := by
  intro ks
  induction ks with
  | nil =>
    intro off p r hm
    rw [pathRectsKeys_nil] at hm
    simp at hm
  | cons k ks ih =>
    intro off p r hm
    rw [sumCountsKeys_cons]
    rcases h : lookupChild l k with _ | c
    · rw [pathRectsKeys_cons_none ks off d h] at hm
      have := ih off p r hm
      simp only [lookupD, h, Option.getD_none]
      have hz : Node.new.count = 0 := rfl
      omega
    · rw [pathRectsKeys_cons_some ks off d h] at hm
      simp only [lookupD, h, Option.getD_some]
      rcases List.mem_append.mp hm with hm | hm
      · obtain ⟨⟨q₀, r₀⟩, hq₀, he⟩ := List.mem_map.mp hm
        simp only [Prod.mk.injEq] at he
        obtain ⟨_, rfl⟩ := he
        have := hch k c h k off (d + 1) q₀ r₀ hq₀
        omega
      · have := ih (off + c.count) p r hm
        omega

/-- Every rectangle in a node's block lies within the node's span. -/
theorem pathRectsNode_span {n : Node} (hwf : n.wfB = true) :
    ∀ (nm off d : Nat) (p : List Nat) (r : Rect),
      (p, r) ∈ pathRectsNode n nm off d →
      off ≤ r.offset ∧ r.offset + r.count ≤ off + n.count := by
  induction n using Node.ind with
  | h cc ch ih =>
    intro nm off d p r hm
    rw [pathRectsNode_def] at hm
    rcases List.mem_append.mp hm with hm | hm
    · have hkeys := Node.wfB_keys hwf
      have hsum : sumCountsKeys
          (sortKeys (((Node.mk cc ch).childrenList).map Prod.fst))
          ((Node.mk cc ch).childrenList) =
          childSumOf ((Node.mk cc ch).childrenList) :=
        sumCountsKeys_perm (sortKeys_perm _) hkeys
      have hspan := pathRectsKeys_span
        (fun k c hk nm' off' d' p' r' hm' =>
          ih (k, c) (lookupChild_mem (by simpa using hk))
            (Node.wfB_child hwf (by simpa using hk)) nm' off' d' p' r' hm')
        _ off p r (by simpa using hm)
      have hcs := Node.wfB_childSum hwf
      simp only [Node.childrenList_mk, Node.count_mk] at hsum hspan hcs ⊢
      rw [hsum] at hspan
      omega
    · simp only [List.mem_singleton, Prod.mk.injEq] at hm
      obtain ⟨_, rfl⟩ := hm
      simp

/-- A child's rectangle span is contained in its parent's. -/
theorem pathRects_child_span : ∀ (p : List Nat) (n : Node), n.wfB = true →
    ∀ (nm off d s : Nat) (r rp : Rect),
      (p ++ [s], r) ∈ pathRectsNode n nm off d →
      (p, rp) ∈ pathRectsNode n nm off d →
      r.offset + r.count ≤ rp.offset + rp.count
  | [], n, hwf, nm, off, d, s, r, rp, hr, hrp => by
    have hrp' := mem_pathRectsNode_nil.mp hrp
    obtain ⟨c, hc, rfl⟩ :=
      (mem_pathRectsNode_single (Node.wfB_keys hwf)).mp (by simpa using hr)
    subst hrp'
    have h1 := belowSumL_add_le (Node.wfB_keys hwf) (lookupChild_mem hc)
    have h2 := Node.wfB_childSum hwf
    simp only
    omega
  | s₀ :: p, n, hwf, nm, off, d, s, r, rp, hr, hrp => by
    rw [List.cons_append] at hr
    rw [mem_pathRectsNode_cons (Node.wfB_keys hwf)] at hr hrp
    obtain ⟨c, hc, hblock⟩ := hr
    obtain ⟨c', hc', hblock'⟩ := hrp
    rw [hc] at hc'
    cases hc'
    exact pathRects_child_span p c (Node.wfB_child hwf hc) s₀
      (off + belowSumL n.childrenList s₀) (d + 1) s r rp hblock hblock'

/-- Among two siblings anywhere in the tree, the smaller-key sibling's whole
span precedes the larger-key sibling's offset. -/
theorem pathRects_sibling_order : ∀ (p : List Nat) (n : Node), n.nodupB = true →
    ∀ (nm off d k₁ k₂ : Nat) (r₁ r₂ : Rect), k₁ < k₂ →
      (p ++ [k₁], r₁) ∈ pathRectsNode n nm off d →
      (p ++ [k₂], r₂) ∈ pathRectsNode n nm off d →
      r₁.offset + r₁.count ≤ r₂.offset
  | [], n, hnd, nm, off, d, k₁, k₂, r₁, r₂, hlt, h₁, h₂ => by
    obtain ⟨c₁, hc₁, rfl⟩ :=
      (mem_pathRectsNode_single (Node.nodupB_keys hnd)).mp (by simpa using h₁)
    obtain ⟨c₂, hc₂, rfl⟩ :=
      (mem_pathRectsNode_single (Node.nodupB_keys hnd)).mp (by simpa using h₂)
    have := belowSumL_mono (Node.nodupB_keys hnd) (lookupChild_mem hc₁) hlt
    simp only
    omega
  | s₀ :: p, n, hnd, nm, off, d, k₁, k₂, r₁, r₂, hlt, h₁, h₂ => by
    rw [List.cons_append] at h₁ h₂
    rw [mem_pathRectsNode_cons (Node.nodupB_keys hnd)] at h₁ h₂
    obtain ⟨c, hc, hb₁⟩ := h₁
    obtain ⟨c', hc', hb₂⟩ := h₂
    rw [hc] at hc'
    cases hc'
    exact pathRects_sibling_order p c (Node.nodupB_child hnd hc) s₀
      (off + belowSumL n.childrenList s₀) (d + 1) k₁ k₂ r₁ r₂ hlt hb₁ hb₂

/-- Consecutive siblings tile exactly: with no sibling key strictly between,
the larger key's rectangle starts where the smaller one's span ends. -/
theorem pathRects_sibling_adjacent : ∀ (p : List Nat) (n : Node),
    n.nodupB = true →
    ∀ (nm off d k₁ k₂ : Nat) (r₁ r₂ : Rect), k₁ < k₂ →
      (p ++ [k₁], r₁) ∈ pathRectsNode n nm off d →
      (p ++ [k₂], r₂) ∈ pathRectsNode n nm off d →
      (∀ (k : Nat) (r' : Rect), (p ++ [k], r') ∈ pathRectsNode n nm off d →
        ¬(k₁ < k ∧ k < k₂)) →
      r₂.offset = r₁.offset + r₁.count
  | [], n, hnd, nm, off, d, k₁, k₂, r₁, r₂, hlt, h₁, h₂, hno => by
    obtain ⟨c₁, hc₁, rfl⟩ :=
      (mem_pathRectsNode_single (Node.nodupB_keys hnd)).mp (by simpa using h₁)
    obtain ⟨c₂, hc₂, rfl⟩ :=
      (mem_pathRectsNode_single (Node.nodupB_keys hnd)).mp (by simpa using h₂)
    have hno' : ∀ q ∈ n.childrenList, ¬(k₁ < q.1 ∧ q.1 < k₂) := by
      intro q hq
      have hlq : lookupChild n.childrenList q.1 = some q.2 :=
        lookupChild_of_mem (Node.nodupB_keys hnd) (by
          obtain ⟨a, b⟩ := q
          exact hq)
      exact hno q.1 ⟨q.1, q.2.count, d + 1, off + belowSumL n.childrenList q.1⟩
        (by
          refine (mem_pathRectsNode_single (Node.nodupB_keys hnd)).mpr ?_
          exact ⟨q.2, hlq, rfl⟩)
    have := belowSumL_adjacent (Node.nodupB_keys hnd)
      (lookupChild_mem hc₁) hlt hno'
    simp only
    omega
  | s₀ :: p, n, hnd, nm, off, d, k₁, k₂, r₁, r₂, hlt, h₁, h₂, hno => by
    rw [List.cons_append] at h₁ h₂
    rw [mem_pathRectsNode_cons (Node.nodupB_keys hnd)] at h₁ h₂
    obtain ⟨c, hc, hb₁⟩ := h₁
    obtain ⟨c', hc', hb₂⟩ := h₂
    rw [hc] at hc'
    cases hc'
    refine pathRects_sibling_adjacent p c (Node.nodupB_child hnd hc) s₀
      (off + belowSumL n.childrenList s₀) (d + 1) k₁ k₂ r₁ r₂ hlt hb₁ hb₂ ?_
    intro k r' hm
    refine hno k r' ?_
    rw [List.cons_append, mem_pathRectsNode_cons (Node.nodupB_keys hnd)]
    exact ⟨c, hc, hm⟩

/-! ### The iterator machine: invariants, termination weight, correctness -/

/-- The keys a frame still has to process all resolve in its node's map. -/
def frameKeysOK (f : Frame) : Prop :=
  ∀ k ∈ f.keys, (lookupChild f.node.childrenList k).isSome = true

/-- Machine invariant: every frame's worklist resolves, and (for the
correctness proof) every frame's node has distinct keys throughout. -/
def frameOK (f : Frame) : Prop := f.node.nodupB = true ∧ frameKeysOK f

theorem Node.childrenOpt_some_of_lookup {n : Node} {k : Nat}
    (h : (lookupChild n.childrenList k).isSome = true) :
    ∃ l, n.childrenOpt = some l ∧ n.childrenList = l := by
  obtain ⟨c, ch⟩ := n
  cases ch with
  | none => simp [Node.childrenList] at h
  | some l => exact ⟨l, rfl, rfl⟩

/-- A fresh frame's worklist always resolves. -/
theorem Frame.new_keysOK (node : Node) (nm off : Nat) :
    frameKeysOK (Frame.new node nm off) := by
  intro k hk
  have : k ∈ node.childrenList.map Prod.fst := sortKeys_mem.mp hk
  exact lookupChild_isSome.mpr this

theorem keysWeight_eq_sum (l : List (Nat × Node)) (ks : List Nat) :
    keysWeight l ks = (ks.map (fun k => 2 * Node.size (lookupD l k))).sum := by
  induction ks with
  | nil => rfl
  | cons k ks ih => simp [keysWeight, ih]

/-- With distinct keys, the full worklist's weight is twice the total size
of the children. -/
theorem keysWeight_sortKeys {l : List (Nat × Node)}
    (hnd : (l.map Prod.fst).Nodup) :
    keysWeight l (sortKeys (l.map Prod.fst)) = 2 * sizeList l := by
  rw [keysWeight_eq_sum]
  have hperm : List.Perm ((sortKeys (l.map Prod.fst)).map
      (fun k => 2 * Node.size (lookupD l k)))
      ((l.map Prod.fst).map (fun k => 2 * Node.size (lookupD l k))) :=
    List.Perm.map _ (sortKeys_perm _)
  rw [List.Perm.sum_eq hperm]
  clear hperm
  induction l with
  | nil => simp [sizeList_nil]
  | cons p t ih =>
    obtain ⟨s, n⟩ := p
    simp only [List.map_cons, List.nodup_cons] at hnd
    simp only [List.map_cons, List.sum_cons, sizeList_cons]
    have hl : lookupD ((s, n) :: t) s = n := by simp [lookupD, lookupChild_cons]
    have ht : ((t.map Prod.fst).map
        (fun k => 2 * Node.size (lookupD ((s, n) :: t) k))).sum =
        ((t.map Prod.fst).map (fun k => 2 * Node.size (lookupD t k))).sum := by
      refine congrArg List.sum (List.map_congr_left ?_)
      intro j hj
      have hne : ¬ (s = j) := fun he => hnd.1 (he ▸ hj)
      simp [lookupD, lookupChild_cons, hne]
    rw [hl, ht, ih hnd.2]
    omega

theorem frameWeight_new {node : Node} (hnd : node.nodupB = true)
    (nm off : Nat) : frameWeight (Frame.new node nm off) = 2 * node.size - 1 := by
  have h1 : frameWeight (Frame.new node nm off) =
      1 + keysWeight node.childrenList (sortKeys (node.childrenList.map Prod.fst)) := rfl
  rw [h1, keysWeight_sortKeys (Node.nodupB_keys hnd)]
  obtain ⟨c, _ | l⟩ := node
  · rw [Node.size_none]
    simp [Node.childrenList, sizeList]
  · rw [Node.size_some]
    simp only [Node.childrenList_mk, Option.getD_some]
    omega

theorem frameWeight_pos (f : Frame) : 1 ≤ frameWeight f := by
  simp [frameWeight]

/-- A fresh frame still owes exactly its node's whole annotated block. -/
theorem denoteFrame_new (node : Node) (nm off db : Nat) :
    denoteFrame (Frame.new node nm off) db =
      (pathRectsNode node nm off db).map Prod.snd := by
  rw [pathRectsNode_def, List.map_append]
  rfl

theorem map_snd_map_consFst (L : List (List Nat × Rect)) (k : Nat) :
    (L.map (fun pr => (k :: pr.1, pr.2))).map Prod.snd = L.map Prod.snd := by
  simp [List.map_map]

/-- One `more` step: the machine expands the next key of the top frame into
a fresh child frame, preserving the owed rectangles and the invariant while
reducing the weight by one. -/
theorem step1_more {cur : Frame} (rest : List Frame) {k : Nat} {ks : List Nat}
    (hck : cur.keys = k :: ks) (hok : frameKeysOK cur) :
    ∃ child, lookupChild cur.node.childrenList k = some child ∧
      step1 (cur :: rest) =
        .more (Frame.new child k cur.offset ::
          { cur with keys := ks, offset := cur.offset + child.count } :: rest) := by
  have hks : (lookupChild cur.node.childrenList k).isSome = true :=
    hok k (by rw [hck]; exact List.mem_cons_self _ _)
  obtain ⟨l, hchopt, hchlist⟩ := Node.childrenOpt_some_of_lookup hks
  rw [hchlist] at hks
  rcases hlk : lookupChild l k with _ | child
  · rw [hlk] at hks
    cases hks
  · refine ⟨child, by rw [hchlist]; exact hlk, ?_⟩
    simp only [step1, hck, hchopt, hlk]

theorem denoteFrame_keys_cons {f : Frame} {k : Nat} {ks : List Nat} {child : Node}
    (hck : f.keys = k :: ks) (hlk : lookupChild f.node.childrenList k = some child)
    (db : Nat) :
    denoteFrame f db =
      (pathRectsNode child k f.offset (db + 1)).map Prod.snd ++
      denoteFrame { f with keys := ks, offset := f.offset + child.count } db := by
  simp only [denoteFrame, hck]
  rw [pathRectsKeys_cons_some ks f.offset db hlk, List.map_append,
      map_snd_map_consFst]
  simp

/-- The fuel-indexed driver returns exactly the owed rectangles on any
well-formed stack, given enough fuel. -/
theorem run_out : ∀ (fuel : Nat) (st : List Frame), (∀ f ∈ st, frameOK f) →
    stackWeight st < fuel → run fuel st = .out (denoteStack st)
  | 0, st, _, hw => absurd hw (by omega)
  | fuel + 1, [], _, _ => by
    simp [run, step1, denoteStack]
  | fuel + 1, cur :: rest, hok, hw => by
    rcases hck : cur.keys with _ | ⟨k, ks⟩
    · have hstep : step1 (cur :: rest) =
          .yield ⟨cur.name, cur.node.count, rest.length, cur.start⟩ rest := by
        simp only [step1, hck]
      have hwr : stackWeight rest < fuel := by
        have h1 : stackWeight (cur :: rest) = frameWeight cur + stackWeight rest := rfl
        have h2 : frameWeight cur = 1 := by
          simp [frameWeight, hck, keysWeight]
        omega
      have hr := run_out fuel rest (fun f hf => hok f (List.mem_cons_of_mem _ hf)) hwr
      simp only [run, hstep, hr]
      have hd : denoteStack (cur :: rest) =
          ⟨cur.name, cur.node.count, rest.length, cur.start⟩ :: denoteStack rest := by
        simp only [denoteStack, denoteFrame, hck, pathRectsKeys_nil]
        simp
      rw [hd]
    · have hokc := hok cur (List.mem_cons_self _ _)
      obtain ⟨child, hlk, hstep⟩ := step1_more rest hck hokc.2
      set fnew := Frame.new child k cur.offset with hfnew
      set cur' : Frame := { cur with keys := ks, offset := cur.offset + child.count }
        with hcur'
      have hndchild : child.nodupB = true := Node.nodupB_child hokc.1 hlk
      have hok' : ∀ f ∈ fnew :: cur' :: rest, frameOK f := by
        intro f hf
        rcases List.mem_cons.mp hf with rfl | hf
        · exact ⟨hndchild, Frame.new_keysOK child k cur.offset⟩
        rcases List.mem_cons.mp hf with rfl | hf
        · refine ⟨hokc.1, ?_⟩
          intro j hj
          exact hokc.2 j (by rw [hck]; exact List.mem_cons_of_mem _ hj)
        · exact hok f (List.mem_cons_of_mem _ hf)
      have hweight : stackWeight (fnew :: cur' :: rest) + 1 =
          stackWeight (cur :: rest) := by
        have h1 : stackWeight (fnew :: cur' :: rest) =
            frameWeight fnew + (frameWeight cur' + stackWeight rest) := rfl
        have h2 : stackWeight (cur :: rest) = frameWeight cur + stackWeight rest := rfl
        have h3 : frameWeight cur = 1 + (2 * Node.size child +
            keysWeight cur.node.childrenList ks) := by
          simp only [frameWeight, hck, keysWeight, lookupD, hlk, Option.getD_some]
        have h4 : frameWeight cur' = 1 + keysWeight cur.node.childrenList ks := rfl
        have h5 : frameWeight fnew = 2 * child.size - 1 :=
          frameWeight_new hndchild k cur.offset
        have h6 := Node.size_pos child
        omega
      have hwlt : stackWeight (fnew :: cur' :: rest) < fuel := by omega
      have hr := run_out fuel (fnew :: cur' :: rest) hok' hwlt
      simp only [run, hstep, hr]
      have hd : denoteStack (fnew :: cur' :: rest) = denoteStack (cur :: rest) := by
        have h1 : denoteStack (fnew :: cur' :: rest) =
            denoteFrame fnew (rest.length + 1) ++
            (denoteFrame cur' rest.length ++ denoteStack rest) := by
          simp [denoteStack]
        have h2 : denoteStack (cur :: rest) =
            denoteFrame cur rest.length ++ denoteStack rest := rfl
        rw [h1, h2, denoteFrame_keys_cons hck hlk rest.length, hfnew,
            denoteFrame_new, List.append_assoc]
      rw [hd]

/-- With enough fuel the iterator, started as `Rects::new(root, name)`,
terminates normally and yields exactly the characterized sequence. -/
theorem run_rectsOf {root : Node} (hnd : root.nodupB = true) (nm fuel : Nat)
    (hfuel : 2 * root.size ≤ fuel) :
    run fuel (Rects.init root nm) = .out (rectsOf root nm) := by
  have hok : ∀ f ∈ Rects.init root nm, frameOK f := by
    intro f hf
    rcases List.mem_singleton.mp hf with rfl
    exact ⟨hnd, Frame.new_keysOK root nm 0⟩
  have hw : stackWeight (Rects.init root nm) < fuel := by
    have h1 : stackWeight (Rects.init root nm) =
        frameWeight (Frame.new root nm 0) := by
      simp [Rects.init, stackWeight]
    rw [h1, frameWeight_new hnd nm 0]
    have := Node.size_pos root
    omega
  rw [run_out fuel _ hok hw]
  have hd : denoteStack (Rects.init root nm) = rectsOf root nm := by
    have h1 : denoteStack (Rects.init root nm) =
        denoteFrame (Frame.new root nm 0) 0 ++ [] := rfl
    rw [h1, denoteFrame_new, List.append_nil]
    rfl
  rw [hd]

/-- The machine never panics on its child lookups, whatever the tree and
however little fuel is granted. -/
theorem run_no_crash : ∀ (fuel : Nat) (st : List Frame),
    (∀ f ∈ st, frameKeysOK f) → isCrash (run fuel st) = false
  | 0, _, _ => rfl
  | fuel + 1, [], _ => by simp [run, step1, isCrash]
  | fuel + 1, cur :: rest, hok => by
    rcases hck : cur.keys with _ | ⟨k, ks⟩
    · have hstep : step1 (cur :: rest) =
          .yield ⟨cur.name, cur.node.count, rest.length, cur.start⟩ rest := by
        simp only [step1, hck]
      have ihr := run_no_crash fuel rest
        (fun f hf => hok f (List.mem_cons_of_mem _ hf))
      simp only [run, hstep]
      rcases hr : run fuel rest with rs | rs | _
      · simp [isCrash]
      · rw [hr] at ihr
        simp [isCrash] at ihr
      · simp [isCrash]
    · obtain ⟨child, hlk, hstep⟩ :=
        step1_more rest hck (hok cur (List.mem_cons_self _ _))
      have hok' : ∀ f ∈ Frame.new child k cur.offset ::
          { cur with keys := ks, offset := cur.offset + child.count } :: rest,
          frameKeysOK f := by
        intro f hf
        rcases List.mem_cons.mp hf with rfl | hf
        · exact Frame.new_keysOK child k cur.offset
        rcases List.mem_cons.mp hf with rfl | hf
        · intro j hj
          exact hok cur (List.mem_cons_self _ _) j
            (by rw [hck]; exact List.mem_cons_of_mem _ hj)
        · exact hok f (List.mem_cons_of_mem _ hf)
      simp only [run, hstep]
      exact run_no_crash fuel _ hok'

/-! ### Well-formedness of built and ingested trees -/

theorem buildTree_wfB (records : List (List Nat × Nat)) :
    (buildTree records).wfB = true := by
  have h : ∀ (rs : List (List Nat × Nat)) (t : Node), t.wfB = true →
      (rs.foldl (fun t r => Node.add t r.1 r.2) t).wfB = true := by
    intro rs
    induction rs with
    | nil => intro t h; exact h
    | cons r rs ih =>
      intro t ht
      exact ih _ (Node.wfB_add r.1 t ht r.2)
  exact h records Node.new Node.wfB_new

theorem ingestLine_wfB {st : IngestState} (h : st.root.wfB = true)
    (line : String) : (ingestLine st line).root.wfB = true := by
  rw [ingestLine]
  rcases hp : parseLine line with _ | pc
  · simpa using h
  · exact Node.wfB_add _ _ h _

theorem ingestAll_wfB (lines : List String) :
    (ingestAll lines).root.wfB = true := by
  have h : ∀ (ls : List String) (st : IngestState), st.root.wfB = true →
      (ls.foldl ingestLine st).root.wfB = true := by
    intro ls
    induction ls with
    | nil => intro st h; exact h
    | cons l ls ih => intro st hst; exact ih _ (ingestLine_wfB hst l)
  exact h lines _ Node.wfB_new

/-- Well-formedness descends to every node reachable by a path. -/
theorem Node.wfB_atPath : ∀ (p : List Nat) (n : Node), n.wfB = true →
    ∀ {m : Node}, n.atPath p = some m → m.wfB = true
  | [], n, h, m, hm => by
    cases hm
    exact h
  | s :: p, n, h, m, hm => by
    simp only [Node.atPath] at hm
    rcases hc : lookupChild n.childrenList s with _ | c
    · rw [hc] at hm
      cases hm
    · rw [hc] at hm
      exact Node.wfB_atPath p c (Node.wfB_child h hc) hm

/-! ### Concrete evaluation helpers -/

/-- Ingesting `a;c 7` then `a;b 3`: `c` is interned before `b`. -/
theorem ingest_cb : ingestAll ["a;c 7", "a;b 3"] =
    { root := Node.mk 10 (some [(0, Node.mk 10
        (some [(1, Node.mk 7 none), (2, Node.mk 3 none)]))]),
      interner := ⟨["a", "c", "b"]⟩, invalid := 0 } := by
  have h1 : parseLine "a;c 7" = some (["a", "c"], 7) := by rfl
  have h2 : parseLine "a;b 3" = some (["a", "b"], 3) := by rfl
  simp only [ingestAll, List.foldl, ingestLine, h1, h2, internPath,
    Interner.getOrIntern, Interner.empty]
  simp [Node.add_cons, Node.add_nil, addChild_nil, addChild_cons, Node.new,
    List.indexOf?, List.findIdx?]

/-- Ingesting `a;b 3` then `a;c 7` (the spec's Scenario 2). -/
theorem ingest_bc : ingestAll ["a;b 3", "a;c 7"] =
    { root := Node.mk 10 (some [(0, Node.mk 10
        (some [(1, Node.mk 3 none), (2, Node.mk 7 none)]))]),
      interner := ⟨["a", "b", "c"]⟩, invalid := 0 } := by
  have h1 : parseLine "a;b 3" = some (["a", "b"], 3) := by rfl
  have h2 : parseLine "a;c 7" = some (["a", "c"], 7) := by rfl
  simp only [ingestAll, List.foldl, ingestLine, h1, h2, internPath,
    Interner.getOrIntern, Interner.empty]
  simp [Node.add_cons, Node.add_nil, addChild_nil, addChild_cons, Node.new,
    List.indexOf?, List.findIdx?]

/-- A small two-record tree used as a concrete instance. -/
theorem buildTree_two : buildTree [([0, 1], 5), ([0], 2)] =
    Node.mk 7 (some [(0, Node.mk 7 (some [(1, Node.mk 5 none)]))]) := by
  simp [buildTree, List.foldl, Node.add_cons, Node.add_nil, addChild_nil,
    addChild_cons, Node.new]

/-! ### The claims -/

/-- Claim C1 (amended): the Depth Resolver gives a node whose count is at or
above `min_count` but all of whose children are below it the value
`depth + 1` — one row for the pruned children — not its own depth; it equals
the node's own depth only when the node has no children map at all. -/
theorem C1_depth_children_below :
    ∀ (c : Nat) (l : List (Nat × Node)) (m d : Nat),
      ¬ c < m → l ≠ [] → (∀ p ∈ l, p.2.count < m) →
      Node.depth (Node.mk c (some l)) m d = d + 1 ∧
      Node.depth (Node.mk c none) m d = d :=
  fun _ l m d hc hne hb =>
    ⟨Node.depth_children_below hc hne hb, Node.depth_none _ m d⟩

/-- Claim C1 witness: a node of count 10 over one child of count 1, with
threshold 5, resolves to depth 1 from depth 0. -/
theorem C1_witness :
    Node.depth (Node.mk 10 (some [(0, Node.mk 1 none)])) 5 0 = 0 + 1 ∧
    Node.depth (Node.mk 10 none) 5 0 = 0 :=
  C1_depth_children_below 10 [(0, Node.mk 1 none)] 5 0 (by decide)
    (by simp)
    (by
      intro p hp
      rcases List.mem_singleton.mp hp with rfl
      decide)

/-- Claim C1 counterexample: for the node of count 10 (≥ 5) whose only child
has count 1 (< 5), the code computes effective depth 1, not the node's own
depth 0 as the claim states. -/
theorem C1_counterexample :
    ¬ ((10 : Nat) < 5) ∧
    (∀ p ∈ [(0, Node.mk 1 none)], (p.2).count < 5) ∧
    Node.depth (Node.mk 10 (some [(0, Node.mk 1 none)])) 5 0 = 1 ∧
    (1 : Nat) ≠ 0 := by
  refine ⟨by decide, ?_, ?_, by decide⟩
  · intro p hp
    rcases List.mem_singleton.mp hp with rfl
    decide
  · rw [Node.depth_some, if_neg (by decide), childDepths_cons, childDepths_nil,
        Node.depth_none, max?_cons]
    rfl

/-- Claim C3 (amended): on a zero-count run `main` prints only the
empty-result diagnostic and returns before the document and before the
invalid-lines diagnostic, even when invalid lines were counted. -/
theorem C3_empty_result :
    ∀ lines : List String, (ingestAll lines).root.count = 0 →
      mainModel lines =
        { document := none, diag := ["no valid stack counts provided!"] } := by
  intro lines h
  simp [mainModel, h]

/-- Claim C3 witness: one invalid line, zero total count — only the
empty-result diagnostic appears. -/
theorem C3_witness :
    mainModel ["badline"] =
      { document := none, diag := ["no valid stack counts provided!"] } :=
  C3_empty_result ["badline"] (by rfl)

/-- Claim C3 counterexample: with input `badline` the invalid-line count is
1 and the run is degenerate, yet the diagnostic channel does not carry the
`invalid lines: 1` line the claim promises — the early return skips it. -/
theorem C3_counterexample :
    (ingestAll ["badline"]).invalid = 1 ∧
    mainModel ["badline"] =
      { document := none, diag := ["no valid stack counts provided!"] } ∧
    "invalid lines: 1" ∉ (mainModel ["badline"]).diag := by
  refine ⟨rfl, rfl, ?_⟩
  decide

/-- Claim C4 (amended): `Node::add` returns no value (unit); the inserted
path terminates at the node reached by consuming every path element — that
node exists after the insertion and its count has grown by the record's
count. -/
theorem C4_add_returns_unit :
    ∀ (t : Node) (path : List Nat) (k : Nat),
      (Node.addRet t path k).2 = () ∧
      ((Node.add t path k).atPath path).isSome = true ∧
      (Node.add t path k).countAt path = t.countAt path + k :=
  fun t path k =>
    ⟨rfl, Node.atPath_add t path k path (isPre_refl path), by
      rw [Node.countAt_add t path k path, if_pos (isPre_refl path)]⟩

/-- Claim C4 counterexample: the value `Node::add` returns is `()`, which is
the same for paths of every length, so no reading of the return value can be
the termination depth. -/
theorem C4_counterexample :
    ¬ ∃ f : Unit → Nat, ∀ path : List Nat,
      f (Node.addRet Node.new path 1).2 = path.length := by
  rintro ⟨f, hf⟩
  have h0 := hf []
  have h1 := hf [0]
  simp only [Node.addRet] at h0 h1
  rw [h0] at h1
  simp at h1

/-- Claim C8: inserting the same `(path, count)` record twice produces
exactly the tree obtained by inserting it once with the count doubled. -/
theorem C8_double_insert :
    ∀ (t : Node) (path : List Nat) (k : Nat),
      Node.add (Node.add t path k) path k = Node.add t path (2 * k) :=
  fun t path k => Node.add_add path t k

/-- Claim C9: raising the visibility threshold never increases the
effective maximum depth. -/
theorem C9_depth_monotone :
    ∀ (n : Node) (m₁ m₂ d : Nat), m₁ ≤ m₂ → n.depth m₂ d ≤ n.depth m₁ d :=
  fun n m₁ m₂ d h => Node.depth_mono n m₁ m₂ d h

/-- Claim C9 witness at a concrete tree and thresholds 1 ≤ 2. -/
theorem C9_witness :
    Node.depth (Node.mk 10 (some [(0, Node.mk 1 none)])) 2 0 ≤
    Node.depth (Node.mk 10 (some [(0, Node.mk 1 none)])) 1 0 :=
  C9_depth_monotone (Node.mk 10 (some [(0, Node.mk 1 none)])) 1 2 0 (by decide)

/-- Claim C10: however much fuel the driver is given and whatever the tree,
the iterator never reaches the panicking child lookup: every key popped
from a frame's worklist is present in that frame's node's children map. -/
theorem C10_no_crash :
    ∀ (fuel : Nat) (root : Node) (nm : Nat),
      isCrash (run fuel (Rects.init root nm)) = false := by
  intro fuel root nm
  refine run_no_crash fuel _ ?_
  intro f hf
  rcases List.mem_singleton.mp hf with rfl
  exact Frame.new_keysOK root nm 0

/-- Claim C2 (amended): for trees built from ingested input the iterator
visits siblings in ascending order of their interned symbols — i.e. in the
order their names were first interned — so the smaller-symbol sibling's whole
span lies at or before the larger-symbol sibling's offset.  (This coincides
with lexical name order only when names happen to be first interned in
lexical order.) -/
theorem C2_sibling_symbol_order :
    ∀ (lines : List String) (nm : Nat) (p : List Nat) (k₁ k₂ : Nat)
      (r₁ r₂ : Rect), k₁ < k₂ →
      (p ++ [k₁], r₁) ∈ pathRects (ingestAll lines).root nm →
      (p ++ [k₂], r₂) ∈ pathRects (ingestAll lines).root nm →
      r₁.offset + r₁.count ≤ r₂.offset :=
  fun lines nm p k₁ k₂ r₁ r₂ hlt h₁ h₂ =>
    pathRects_sibling_order p _ (Node.wfB_nodupB (ingestAll_wfB lines)) nm 0 0
      k₁ k₂ r₁ r₂ hlt h₁ h₂

/-- Claim C2 witness: Scenario 2 (`a;b 3` then `a;c 7`): sibling `b`
(symbol 1) spans `[0, 3)` and sibling `c` (symbol 2) starts at 3. -/
theorem C2_witness :
    (⟨1, 3, 2, 0⟩ : Rect).offset + (⟨1, 3, 2, 0⟩ : Rect).count ≤
      (⟨2, 7, 2, 3⟩ : Rect).offset :=
  C2_sibling_symbol_order ["a;b 3", "a;c 7"] 5 [0] 1 2 ⟨1, 3, 2, 0⟩ ⟨2, 7, 2, 3⟩
    (by decide)
    (by
      rw [ingest_bc]
      exact (mem_pathRectsNode_cons (by decide)).mpr
        ⟨_, rfl, (mem_pathRectsNode_single (by decide)).mpr ⟨_, rfl, rfl⟩⟩)
    (by
      rw [ingest_bc]
      exact (mem_pathRectsNode_cons (by decide)).mpr
        ⟨_, rfl, (mem_pathRectsNode_single (by decide)).mpr ⟨_, rfl, rfl⟩⟩)

/-- Claim C2 counterexample: ingesting `a;c 7` then `a;b 3` interns `c`
before `b`, so the iterator emits `c` (symbol 1, offset 0) before `b`
(symbol 2, offset 7) even though `b` is the lexically smaller name: sibling
order follows interning order, not lexical order. -/
theorem C2_counterexample :
    (ingestAll ["a;c 7", "a;b 3"]).interner.resolve 1 = some "c" ∧
    (ingestAll ["a;c 7", "a;b 3"]).interner.resolve 2 = some "b" ∧
    lexLt "b".toList "c".toList = true ∧
    ((ingestAll ["a;c 7", "a;b 3"]).interner.getOrIntern "all").1 = 3 ∧
    run 32 (Rects.init (ingestAll ["a;c 7", "a;b 3"]).root
        ((ingestAll ["a;c 7", "a;b 3"]).interner.getOrIntern "all").1) =
      .out [⟨1, 7, 2, 0⟩, ⟨2, 3, 2, 7⟩, ⟨0, 10, 1, 0⟩, ⟨3, 10, 0, 0⟩] ∧
    ¬ ((7 : Nat) ≤ 0) := by
  rw [ingest_cb]
  refine ⟨rfl, rfl, by decide, rfl, by decide, by decide⟩

/-- Claim C5: in a tree built by any record list, every node's count is the
total of the records terminating exactly there plus its children's counts;
each child's count is bounded by its parent's wherever a child exists, and
the root's count is the total of all records' counts. -/
theorem C5_aggregation :
    ∀ (records : List (List Nat × Nat)) (p : List Nat),
      ((buildTree records).countAt p =
        termSum records p + (buildTree records).childSumAt p) ∧
      (∀ {s : Nat} {n c : Node}, (buildTree records).atPath p = some n →
        lookupChild n.childrenList s = some c → c.count ≤ n.count) ∧
      (buildTree records).count = recordsSum records := by
  intro records p
  refine ⟨buildTree_aggregation records p, ?_, buildTree_root_count records⟩
  intro s n c hat hlk
  have hwf := Node.wfB_atPath p _ (buildTree_wfB records) hat
  exact le_trans (count_le_childSumOf (lookupChild_mem hlk)) (Node.wfB_childSum hwf)

/-- Claim C5 witness: records `[0,1] ↦ 5` and `[0] ↦ 2`, inspected at the
node `[0]` and at its child `1`. -/
theorem C5_witness :
    (buildTree [([0, 1], 5), ([0], 2)]).countAt [0] =
      termSum [([0, 1], 5), ([0], 2)] [0] +
      (buildTree [([0, 1], 5), ([0], 2)]).childSumAt [0] ∧
    (Node.mk 5 none).count ≤ (Node.mk 7 (some [(1, Node.mk 5 none)])).count ∧
    (buildTree [([0, 1], 5), ([0], 2)]).count =
      recordsSum [([0, 1], 5), ([0], 2)] :=
  ⟨(C5_aggregation [([0, 1], 5), ([0], 2)] [0]).1,
   (C5_aggregation [([0, 1], 5), ([0], 2)] [0]).2.1 (s := 1)
     (by rw [buildTree_two]; rfl) (by rfl),
   (C5_aggregation [([0, 1], 5), ([0], 2)] [0]).2.2⟩

/-- Claim C6: with fuel at least twice the node count, the iterator run ends
normally with the characterized rectangle sequence; that sequence carries
exactly one rectangle per tree node (a rectangle for a path exists iff the
tree has a node there, and no path repeats), and consecutive siblings —
no sibling key strictly between — tile exactly, the later one starting where
the earlier one's span ends. -/
theorem C6_iterator_complete :
    ∀ (root : Node) (nm fuel : Nat), root.nodupB = true → 2 * root.size ≤ fuel →
      (run fuel (Rects.init root nm) = .out (rectsOf root nm) ∧
       (∀ p : List Nat, (∃ r, (p, r) ∈ pathRects root nm) ↔
         (root.atPath p).isSome = true) ∧
       ((pathRects root nm).map Prod.fst).Nodup ∧
       (∀ (p : List Nat) (k₁ k₂ : Nat) (r₁ r₂ : Rect), k₁ < k₂ →
         (p ++ [k₁], r₁) ∈ pathRects root nm →
         (p ++ [k₂], r₂) ∈ pathRects root nm →
         (∀ (k : Nat) (r' : Rect), (p ++ [k], r') ∈ pathRects root nm →
           ¬(k₁ < k ∧ k < k₂)) →
         r₂.offset = r₁.offset + r₁.count)) := by
  intro root nm fuel hnd hfuel
  refine ⟨run_rectsOf hnd nm fuel hfuel,
    fun p => pathRects_mem_iff p root hnd nm 0 0,
    pathRectsNode_fst_nodup hnd nm 0 0, ?_⟩
  intro p k₁ k₂ r₁ r₂ hlt h₁ h₂ hno
  exact pathRects_sibling_adjacent p root hnd nm 0 0 k₁ k₂ r₁ r₂ hlt h₁ h₂ hno

/-- Claim C6 witness at the two-record tree with fuel 6. -/
theorem C6_witness :
    (run 6 (Rects.init (buildTree [([0, 1], 5), ([0], 2)]) 9) =
      .out (rectsOf (buildTree [([0, 1], 5), ([0], 2)]) 9) ∧
     (∀ p : List Nat,
       (∃ r, (p, r) ∈ pathRects (buildTree [([0, 1], 5), ([0], 2)]) 9) ↔
       ((buildTree [([0, 1], 5), ([0], 2)]).atPath p).isSome = true) ∧
     ((pathRects (buildTree [([0, 1], 5), ([0], 2)]) 9).map Prod.fst).Nodup ∧
     (∀ (p : List Nat) (k₁ k₂ : Nat) (r₁ r₂ : Rect), k₁ < k₂ →
       (p ++ [k₁], r₁) ∈ pathRects (buildTree [([0, 1], 5), ([0], 2)]) 9 →
       (p ++ [k₂], r₂) ∈ pathRects (buildTree [([0, 1], 5), ([0], 2)]) 9 →
       (∀ (k : Nat) (r' : Rect),
         (p ++ [k], r') ∈ pathRects (buildTree [([0, 1], 5), ([0], 2)]) 9 →
         ¬(k₁ < k ∧ k < k₂)) →
       r₂.offset = r₁.offset + r₁.count)) :=
  C6_iterator_complete (buildTree [([0, 1], 5), ([0], 2)]) 9 6
    (Node.wfB_nodupB (buildTree_wfB _))
    (by
      rw [buildTree_two]
      simp [Node.size_some, Node.size_none, sizeList_cons, sizeList_nil])

/-- Claim C7: in a tree built from a fresh root, every non-root rectangle's
span `[offset, offset+count)` ends no later than its parent rectangle's
span. -/
theorem C7_child_contained :
    ∀ (records : List (List Nat × Nat)) (nm : Nat) (p : List Nat) (s : Nat)
      (r rp : Rect),
      (p ++ [s], r) ∈ pathRects (buildTree records) nm →
      (p, rp) ∈ pathRects (buildTree records) nm →
      r.offset + r.count ≤ rp.offset + rp.count :=
  fun records nm p s r rp h₁ h₂ =>
    pathRects_child_span p _ (buildTree_wfB records) nm 0 0 s r rp h₁ h₂

/-- Claim C7 witness: the rectangle of node `[0, 1]` is contained in the
span of its parent `[0]`. -/
theorem C7_witness :
    (⟨1, 5, 2, 0⟩ : Rect).offset + (⟨1, 5, 2, 0⟩ : Rect).count ≤
      (⟨0, 7, 1, 0⟩ : Rect).offset + (⟨0, 7, 1, 0⟩ : Rect).count :=
  C7_child_contained [([0, 1], 5), ([0], 2)] 9 [0] 1 ⟨1, 5, 2, 0⟩ ⟨0, 7, 1, 0⟩
    (by
      rw [buildTree_two]
      exact (mem_pathRectsNode_cons (by decide)).mpr
        ⟨_, rfl, (mem_pathRectsNode_single (by decide)).mpr ⟨_, rfl, rfl⟩⟩)
    (by
      rw [buildTree_two]
      exact (mem_pathRectsNode_single (by decide)).mpr ⟨_, rfl, rfl⟩)
